import Mathlib

/-!
Verification of the ccspace.org Wayback archiver (archive_site.py).

This file gives a shallow embedding, over lists of characters, of the URL
and path manipulation code of the WaybackArchiver class, together with the
relevant parts of the Python standard library functions it calls
(urllib.parse.urlparse, urllib.parse.parse_qs, os.path.dirname,
os.path.splitext, os.path.relpath, posix pathlib joining, hashlib.md5),
and proves or refutes the frozen specification claims about it.

Conventions used throughout the embedding:
- Python strings are modelled as List Char; machine words inside MD5 are
  modelled as Nat reduced modulo 2 to the 32.
- Python regular expression character class backslash-s is modelled by the
  six ASCII whitespace characters (space, tab, newline, carriage return,
  vertical tab, form feed); Python in unicode mode additionally matches a
  few non-ASCII space code points, which cannot occur inside the URL
  character sets handled here.
- Python backslash-w is modelled by ASCII alphanumerics plus underscore;
  the unicode word characters of Python are outside the ASCII domain the
  archiver deals with.
-/

namespace ArchiveSite

/-! ### Generic list lemmas -/

theorem takeWhile_append_all {p : Char → Bool} {a : List Char} (b : List Char)
    (h : ∀ c ∈ a, p c = true) :
    (a ++ b).takeWhile p = a ++ b.takeWhile p := by
  induction a with
  | nil => simp
  | cons x xs ih =>
      have hx : p x = true := h x (by simp)
      simp only [List.cons_append, List.takeWhile_cons, hx, if_true]
      rw [ih (fun c hc => h c (by simp [hc]))]

theorem takeWhile_append_stop {p : Char → Bool} {c : Char} (a b : List Char)
    (h : p c = false) :
    (a ++ c :: b).takeWhile p = a.takeWhile p := by
  induction a with
  | nil => simp [List.takeWhile_cons, h]
  | cons x xs ih =>
      by_cases hx : p x = true
      · simp only [List.cons_append, List.takeWhile_cons, hx, if_true]
        rw [ih]
      · have hx2 : p x = false := by revert hx; cases p x <;> simp
        simp [List.takeWhile_cons, hx2]

theorem mem_takeWhile_mem {p : Char → Bool} {c : Char} {l : List Char}
    (h : c ∈ l.takeWhile p) : c ∈ l ∧ p c = true := by
  induction l with
  | nil => simp [List.takeWhile] at h
  | cons x xs ih =>
      by_cases hx : p x = true
      · simp only [List.takeWhile_cons, hx, if_true, List.mem_cons] at h
        rcases h with h | h
        · exact ⟨by simp [h], h ▸ hx⟩
        · rcases ih h with ⟨h1, h2⟩
          exact ⟨by simp [h1], h2⟩
      · have hx2 : p x = false := by revert hx; cases p x <;> simp
        simp [List.takeWhile_cons, hx2] at h

theorem dropWhile_head_false {p : Char → Bool} {c : Char} {l t : List Char}
    (h : l.dropWhile p = c :: t) : p c = false := by
  induction l with
  | nil => simp [List.dropWhile] at h
  | cons x xs ih =>
      by_cases hx : p x = true
      · simp only [List.dropWhile_cons, hx, if_true] at h
        exact ih h
      · have hx2 : p x = false := by revert hx; cases p x <;> simp
        simp only [List.dropWhile_cons, hx2] at h
        simp at h
        rcases h with ⟨h1, _⟩
        exact h1 ▸ hx2

theorem dropWhile_suffix {p : Char → Bool} {c : Char} (t r : List Char)
    (h : p c = false) :
    ∃ u, (t ++ c :: r).dropWhile p = u ++ c :: r := by
  induction t with
  | nil =>
      refine ⟨[], ?_⟩
      simp [List.dropWhile_cons, h]
  | cons x xs ih =>
      by_cases hx : p x = true
      · simp only [List.cons_append, List.dropWhile_cons, hx, if_true]
        exact ih
      · have hx2 : p x = false := by revert hx; cases p x <;> simp
        refine ⟨x :: xs, ?_⟩
        simp [List.dropWhile_cons, hx2]

theorem take_append_le {n : Nat} (a b : List Char) (h : n ≤ a.length) :
    (a ++ b).take n = a.take n := by
  induction a generalizing n with
  | nil =>
      simp at h
      simp [h]
  | cons x xs ih =>
      cases n with
      | zero => simp
      | succ m =>
          simp only [List.cons_append, List.take_succ_cons]
          rw [ih]
          simpa using h

/-! ### Suffix predicate (Python str.endswith) -/

/-- Python s.endswith(t): the last t.length characters of s equal t. -/
def endsWithL (l s : List Char) : Prop :=
  s.length ≤ l.length ∧ l.drop (l.length - s.length) = s

instance : ∀ l s, Decidable (endsWithL l s) := fun l s =>
  inferInstanceAs (Decidable (_ ∧ _))

theorem endsWithL_iff (l s : List Char) : endsWithL l s ↔ ∃ t, l = t ++ s := by
  constructor
  · rintro ⟨h1, h2⟩
    refine ⟨l.take (l.length - s.length), ?_⟩
    conv_lhs => rw [← List.take_append_drop (l.length - s.length) l]
    rw [h2]
  · rintro ⟨t, rfl⟩
    constructor
    · simp
    · have : (t ++ s).length - s.length = t.length := by simp
      rw [this, List.drop_left]

theorem endsWithL_intro (t s : List Char) : endsWithL (t ++ s) s :=
  (endsWithL_iff _ _).2 ⟨t, rfl⟩

/-- Two suffix decompositions of the same list agree on the reversed prefix of
the shorter suffix length. Used to derive contradictions between conflicting
suffix shapes. -/
theorem suffix_suffix_take {l t1 s1 t2 s2 : List Char} (n : Nat)
    (h1 : l = t1 ++ s1) (h2 : l = t2 ++ s2)
    (hn1 : n ≤ s1.length) (hn2 : n ≤ s2.length) :
    s1.reverse.take n = s2.reverse.take n := by
  have e : s1.reverse ++ t1.reverse = s2.reverse ++ t2.reverse := by
    have := h1 ▸ h2
    calc s1.reverse ++ t1.reverse = (t1 ++ s1).reverse := by simp
    _ = (t2 ++ s2).reverse := by rw [← this]
    _ = s2.reverse ++ t2.reverse := by simp
  calc s1.reverse.take n = (s1.reverse ++ t1.reverse).take n := by
        rw [take_append_le _ _ (by simpa using hn1)]
  _ = (s2.reverse ++ t2.reverse).take n := by rw [e]
  _ = s2.reverse.take n := take_append_le _ _ (by simpa using hn2)

/-! ### Prefix predicate (Python str.startswith) -/

/-- Python s.startswith(t). -/
def startsWithL (l s : List Char) : Prop := l.take s.length = s

instance : ∀ l s, Decidable (startsWithL l s) := fun l s =>
  inferInstanceAs (Decidable (_ = _))

theorem startsWithL_iff (l s : List Char) : startsWithL l s ↔ ∃ t, l = s ++ t := by
  constructor
  · intro h
    exact ⟨l.drop s.length, by conv_lhs => rw [← List.take_append_drop s.length l, h]⟩
  · rintro ⟨t, rfl⟩
    unfold startsWithL
    rw [take_append_le s t (Nat.le_refl _), List.take_length]

theorem startsWithL_head {l s1 s2 : List Char} {c1 c2 : Char}
    (h1 : startsWithL l (c1 :: s1)) (h2 : startsWithL l (c2 :: s2)) : c1 = c2 := by
  rcases (startsWithL_iff _ _).1 h1 with ⟨t1, e1⟩
  rcases (startsWithL_iff _ _).1 h2 with ⟨t2, e2⟩
  have e3 := e1.symm.trans e2
  simp only [List.cons_append, List.cons.injEq] at e3
  exact e3.1

/-! ### Character-level splitting helpers -/

/-- Python s.split(c, 1): first occurrence split, when the separator occurs. -/
def splitOnceChar (c : Char) : List Char → Option (List Char × List Char)
  | [] => none
  | x :: xs =>
      if x = c then some ([], xs)
      else
        match splitOnceChar c xs with
        | some (a, b) => some (x :: a, b)
        | none => none

theorem splitOnceChar_none {c : Char} {l : List Char}
    (h : splitOnceChar c l = none) : c ∉ l := by
  induction l with
  | nil => simp
  | cons x xs ih =>
      by_cases hx : x = c
      · simp [splitOnceChar, hx] at h
      · simp only [splitOnceChar, hx, if_false] at h
        rcases hs : splitOnceChar c xs with _ | p
        · intro hm
          rcases List.mem_cons.1 hm with hm | hm
          · exact hx hm.symm
          · exact ih hs hm
        · rw [hs] at h
          simp at h

theorem splitOnceChar_some {c : Char} {l a b : List Char}
    (h : splitOnceChar c l = some (a, b)) : l = a ++ c :: b ∧ c ∉ a := by
  induction l generalizing a b with
  | nil => simp [splitOnceChar] at h
  | cons x xs ih =>
      by_cases hx : x = c
      · simp only [splitOnceChar, hx, if_true, Option.some.injEq, Prod.mk.injEq] at h
        rcases h with ⟨h1, h2⟩
        exact ⟨by simp [hx, ← h1, ← h2], by simp [← h1]⟩
      · simp only [splitOnceChar, hx, if_false] at h
        rcases hs : splitOnceChar c xs with _ | ⟨a2, b2⟩
        · rw [hs] at h; simp at h
        · rw [hs] at h
          simp only [Option.some.injEq, Prod.mk.injEq] at h
          rcases h with ⟨h1, h2⟩
          rcases ih hs with ⟨e1, e2⟩
          subst h2
          constructor
          · rw [← h1]; simp [e1]
          · rw [← h1]
            intro hm
            rcases List.mem_cons.1 hm with hm | hm
            · exact hx hm.symm
            · exact e2 hm

/-- Python s.split(c): split on every occurrence, keeping empty pieces. -/
def splitOnChar (c : Char) : List Char → List (List Char)
  | [] => [[]]
  | x :: xs =>
      if x = c then [] :: splitOnChar c xs
      else
        match splitOnChar c xs with
        | [] => [[x]]
        | h :: t => (x :: h) :: t

/-! ### Percent decoding (urllib.parse.unquote / unquote_plus)

Python unquote splits the input at percent escapes, gathers maximal runs of
escaped bytes and decodes each run as UTF-8 with errors equal to replace
(maximal-subpart substitution); literal characters pass through unchanged.
-/

def hexVal (c : Char) : Option Nat :=
  if '0' ≤ c ∧ c ≤ '9' then some (c.toNat - 48)
  else if 'a' ≤ c ∧ c ≤ 'f' then some (c.toNat - 87)
  else if 'A' ≤ c ∧ c ≤ 'F' then some (c.toNat - 55)
  else none

def replChar : Char := Char.ofNat 0xFFFD

def isContByte (b : Nat) : Bool := 0x80 ≤ b && b ≤ 0xBF

def cont2Ok3 (b b2 : Nat) : Bool :=
  if b = 0xE0 then 0xA0 ≤ b2 && b2 ≤ 0xBF
  else if b = 0xED then 0x80 ≤ b2 && b2 ≤ 0x9F
  else isContByte b2

def cont2Ok4 (b b2 : Nat) : Bool :=
  if b = 0xF0 then 0x90 ≤ b2 && b2 ≤ 0xBF
  else if b = 0xF4 then 0x80 ≤ b2 && b2 ≤ 0x8F
  else isContByte b2

/-- UTF-8 decoding with maximal-subpart replacement, as CPython uses for
percent-decoded byte runs. -/
def decodeUtf8Replace : List Nat → List Char
  | [] => []
  | b :: bs =>
      if b < 0x80 then Char.ofNat b :: decodeUtf8Replace bs
      else if 0xC2 ≤ b ∧ b ≤ 0xDF then
        match bs with
        | b2 :: bs2 =>
            if isContByte b2 then
              Char.ofNat ((b - 0xC0) * 64 + (b2 - 0x80)) :: decodeUtf8Replace bs2
            else replChar :: decodeUtf8Replace (b2 :: bs2)
        | [] => [replChar]
      else if 0xE0 ≤ b ∧ b ≤ 0xEF then
        match bs with
        | b2 :: bs2 =>
            if cont2Ok3 b b2 then
              match bs2 with
              | b3 :: bs3 =>
                  if isContByte b3 then
                    Char.ofNat ((b - 0xE0) * 4096 + (b2 - 0x80) * 64 + (b3 - 0x80)) ::
                      decodeUtf8Replace bs3
                  else replChar :: decodeUtf8Replace (b3 :: bs3)
              | [] => [replChar]
            else replChar :: decodeUtf8Replace (b2 :: bs2)
        | [] => [replChar]
      else if 0xF0 ≤ b ∧ b ≤ 0xF4 then
        match bs with
        | b2 :: bs2 =>
            if cont2Ok4 b b2 then
              match bs2 with
              | b3 :: bs3 =>
                  if isContByte b3 then
                    match bs3 with
                    | b4 :: bs4 =>
                        if isContByte b4 then
                          Char.ofNat ((b - 0xF0) * 262144 + (b2 - 0x80) * 4096 +
                              (b3 - 0x80) * 64 + (b4 - 0x80)) :: decodeUtf8Replace bs4
                        else replChar :: decodeUtf8Replace (b4 :: bs4)
                    | [] => [replChar]
                  else replChar :: decodeUtf8Replace (b3 :: bs3)
              | [] => [replChar]
            else replChar :: decodeUtf8Replace (b2 :: bs2)
        | [] => [replChar]
      else replChar :: decodeUtf8Replace bs

/-- Core of urllib.parse.unquote over characters, carrying the pending run of
percent-decoded bytes in reverse order. -/
def unquoteAux : List Char → List Nat → List Char
  | [], acc => decodeUtf8Replace acc.reverse
  | '%' :: a :: b :: rest, acc =>
      match hexVal a, hexVal b with
      | some ha, some hb => unquoteAux rest ((ha * 16 + hb) :: acc)
      | _, _ =>
          decodeUtf8Replace acc.reverse ++ '%' :: unquoteAux (a :: b :: rest) []
  | c :: rest, acc => decodeUtf8Replace acc.reverse ++ c :: unquoteAux rest []

/-- urllib.parse.unquote. -/
def unquoteL (l : List Char) : List Char := unquoteAux l []

/-- urllib.parse.unquote_plus: plus signs become spaces, then percent escapes
are decoded. -/
def unquotePlus (l : List Char) : List Char :=
  unquoteL (l.map (fun c => if c = '+' then ' ' else c))

/-! ### urllib.parse.parse_qs / parse_qsl

Defaults of the observed call site: separator is the ampersand,
keep_blank_values is false, strict_parsing is false.  Fields without an
equals sign and fields with an empty value are dropped; names and values
are unquote_plus decoded; order is preserved.
-/

def parseQsl (q : List Char) : List (List Char × List Char) :=
  (splitOnChar '&' q).filterMap (fun field =>
    if field = [] then none
    else
      match splitOnceChar '=' field with
      | none => none
      | some (n, v) =>
          if v = [] then none else some (unquotePlus n, unquotePlus v))

/-- The first value stored under a key by parse_qs: this models the Python
expression query_params[key][0], with key presence modelled by the option. -/
def firstQsVal (q key : List Char) : Option (List Char) :=
  (parseQsl q).lookup key

/-! ### urllib.parse.urlparse -/

structure UrlParts where
  scheme : List Char
  netloc : List Char
  path : List Char
  params : List Char
  query : List Char
  fragment : List Char
deriving Repr, DecidableEq

def schemeChar (c : Char) : Bool :=
  c.isAlpha || c.isDigit || c == '+' || c == '-' || c == '.'

def schemeHeadOk : List Char → Bool
  | c :: _ => c.isAlpha
  | [] => false

/-- WHATWG C0-control-or-space stripping of the left end only, plus removal
of tab, CR and LF everywhere, performed by urlsplit before parsing. -/
def presplitClean (l : List Char) : List Char :=
  (l.dropWhile (fun c => decide (c ≤ ' '))).filter
    (fun c => !(c == Char.ofNat 9 || c == Char.ofNat 13 || c == Char.ofNat 10))

/-- Splitting off the fragment at the first hash sign. -/
def splitFragment (l : List Char) : List Char × List Char :=
  match splitOnceChar '#' l with
  | some ab => ab
  | none => (l, [])

/-- Splitting off the query at the first question mark. -/
def splitQuery (l : List Char) : List Char × List Char :=
  match splitOnceChar '?' l with
  | some ab => ab
  | none => (l, [])

/-- urllib.parse.urlsplit (params not yet separated). -/
def urlsplitL (url0 : List Char) : UrlParts :=
  let url1 := presplitClean url0
  let sr : List Char × List Char :=
    match splitOnceChar ':' url1 with
    | some (pre, post) =>
        if schemeHeadOk pre ∧ pre.all schemeChar = true then
          (pre.map Char.toLower, post)
        else ([], url1)
    | none => ([], url1)
  let scheme := sr.1
  let rest := sr.2
  let nr : List Char × List Char :=
    if startsWithL rest ('/' :: '/' :: []) then
      let body := rest.drop 2
      let nl := body.takeWhile (fun c => !(c == '/' || c == '?' || c == '#'))
      (nl, body.drop nl.length)
    else ([], rest)
  let netloc := nr.1
  let rest2 := nr.2
  let fr := splitFragment rest2
  let qr := splitQuery fr.1
  ⟨scheme, netloc, qr.1, [], qr.2, fr.2⟩

/-- The last path segment: Python path.split(sep)[-1]. -/
def lastSegL (l : List Char) : List Char :=
  (l.reverse.takeWhile (fun c => c != '/')).reverse

/-- urllib.parse converts url;params by splitting at the first semicolon of
the last slash-separated segment (or of the whole string when there is no
slash). -/
def splitparamsL (p : List Char) : List Char × List Char :=
  if '/' ∈ p then
    let seg := lastSegL p
    match splitOnceChar ';' seg with
    | some (a, b) => (p.take (p.length - seg.length) ++ a, b)
    | none => (p, [])
  else
    match splitOnceChar ';' p with
    | some (a, b) => (a, b)
    | none => (p, [])

/-- urllib.parse.urlparse. -/
def urlparseL (url : List Char) : UrlParts :=
  let u := urlsplitL url
  let pp := splitparamsL u.path
  { u with path := pp.1, params := pp.2 }

/-- The hostname accessor of a parse result: the part of the netloc after the
last at sign, before the port colon (brackets of IPv6 literals stripped),
lowercased; absent when empty. -/
def hostnameOf (url : List Char) : Option (List Char) :=
  let n := (urlsplitL url).netloc
  let hostinfo := (n.reverse.takeWhile (fun c => c != '@')).reverse
  let host :=
    if hostinfo.head? = some '[' then (hostinfo.drop 1).takeWhile (fun c => c != ']')
    else hostinfo.takeWhile (fun c => c != ':')
  if host = [] then none else some (host.map Char.toLower)

/-! ### Path-string helpers (os.path and pathlib) -/

/-- Python str.strip(c): remove the character from both ends. -/
def stripChar (c : Char) (l : List Char) : List Char :=
  ((l.dropWhile (fun x => x == c)).reverse.dropWhile (fun x => x == c)).reverse

/-- os.path.dirname for POSIX paths. -/
def dirnameL (p : List Char) : List Char :=
  let bRev := p.reverse.takeWhile (fun c => c != '/')
  let head := (p.reverse.drop bRev.length).reverse
  if head = [] then []
  else if head.all (fun c => c == '/') then head
  else (head.reverse.dropWhile (fun c => c == '/')).reverse

/-- os.path.splitext for POSIX paths: split the extension off the last
segment, treating dots that only lead the basename as non-extensions. -/
def splitextL (p : List Char) : List Char × List Char :=
  let bRev := p.reverse.takeWhile (fun c => c != '/')
  let dirRev := p.reverse.drop bRev.length
  let w := bRev.takeWhile (fun c => c != '.')
  match bRev.dropWhile (fun c => c != '.') with
  | [] => (p, [])
  | _ :: v =>
      let preB := v.reverse
      let ext := '.' :: w.reverse
      if preB.all (fun c => c == '.') then (p, [])
      else (dirRev.reverse ++ preB, ext)

def joinSlash : List (List Char) → List Char
  | [] => []
  | [c] => c
  | c :: rest => c ++ '/' :: joinSlash rest

/-- The components a relative PurePosixPath keeps: empty pieces and single
dots are collapsed away. -/
def purePathComponents (p : List Char) : List (List Char) :=
  (splitOnChar '/' p).filter (fun s => s != [] && s != ['.'])

/-- Joining a relative path onto a base with the pathlib slash operator and
rendering it, for the relative non-anchored paths the archiver builds. -/
def pyPathJoin (a b : List Char) : List Char :=
  joinSlash (purePathComponents a ++ purePathComponents b)

/-- The pathlib parent of a relative path. -/
def pyParent (p : List Char) : List Char :=
  match (purePathComponents p).dropLast with
  | [] => ['.']
  | l => joinSlash l

def ddotSeg : List Char := ['.', '.']

/-- Resolution of dot-dot components as os.path.normpath performs it on the
absolute paths produced inside os.path.relpath; the model takes the shared
working directory to be the filesystem root, which cancels out of the
relative-path computation whenever the dot-dot components of the inputs do
not outrun their own depth. -/
def resolveDotDot (cs : List (List Char)) : List (List Char) :=
  cs.foldl (fun acc c => if c = ddotSeg then acc.dropLast else acc ++ [c]) []

def normComponents (p : List Char) : List (List Char) :=
  resolveDotDot (purePathComponents p)

def commonPrefixLen : List (List Char) → List (List Char) → Nat
  | a :: as, b :: bs => if a = b then 1 + commonPrefixLen as bs else 0
  | _, _ => 0

/-- os.path.relpath(path, start) for POSIX paths. -/
def relpathL (path start : List Char) : List Char :=
  let pl := normComponents path
  let sl := normComponents start
  let i := commonPrefixLen pl sl
  let rel := List.replicate (sl.length - i) ddotSeg ++ pl.drop i
  if rel = [] then ['.'] else joinSlash rel

/-! ### str.encode (UTF-8) and hashlib.md5

MD5 is implemented over Nat with explicit reduction modulo 2 to the 32;
the digest is rendered as 32 lowercase hexadecimal characters, of which the
archiver keeps the first 8.
-/

def utf8Char (c : Char) : List Nat :=
  let n := c.toNat
  if n < 0x80 then [n]
  else if n < 0x800 then [0xC0 + n / 64, 0x80 + n % 64]
  else if n < 0x10000 then
    [0xE0 + n / 4096, 0x80 + (n / 64) % 64, 0x80 + n % 64]
  else
    [0xF0 + n / 262144, 0x80 + (n / 4096) % 64, 0x80 + (n / 64) % 64, 0x80 + n % 64]

def utf8Encode (l : List Char) : List Nat := l.foldr (fun c acc => utf8Char c ++ acc) []

def m32 : Nat := 4294967296

def add32 (a b : Nat) : Nat := (a + b) % m32

def not32 (x : Nat) : Nat := (x % m32) ^^^ 4294967295

def rotl32 (x n : Nat) : Nat := ((x <<< n) % m32) ||| (x >>> (32 - n))

def md5K : List Nat :=
  [0xd76aa478, 0xe8c7b756, 0x242070db, 0xc1bdceee,
   0xf57c0faf, 0x4787c62a, 0xa8304613, 0xfd469501,
   0x698098d8, 0x8b44f7af, 0xffff5bb1, 0x895cd7be,
   0x6b901122, 0xfd987193, 0xa679438e, 0x49b40821,
   0xf61e2562, 0xc040b340, 0x265e5a51, 0xe9b6c7aa,
   0xd62f105d, 0x02441453, 0xd8a1e681, 0xe7d3fbc8,
   0x21e1cde6, 0xc33707d6, 0xf4d50d87, 0x455a14ed,
   0xa9e3e905, 0xfcefa3f8, 0x676f02d9, 0x8d2a4c8a,
   0xfffa3942, 0x8771f681, 0x6d9d6122, 0xfde5380c,
   0xa4beea44, 0x4bdecfa9, 0xf6bb4b60, 0xbebfbc70,
   0x289b7ec6, 0xeaa127fa, 0xd4ef3085, 0x04881d05,
   0xd9d4d039, 0xe6db99e5, 0x1fa27cf8, 0xc4ac5665,
   0xf4292244, 0x432aff97, 0xab9423a7, 0xfc93a039,
   0x655b59c3, 0x8f0ccc92, 0xffeff47d, 0x85845dd1,
   0x6fa87e4f, 0xfe2ce6e0, 0xa3014314, 0x4e0811a1,
   0xf7537e82, 0xbd3af235, 0x2ad7d2bb, 0xeb86d391]

def md5S : List Nat :=
  [7, 12, 17, 22, 7, 12, 17, 22, 7, 12, 17, 22, 7, 12, 17, 22,
   5, 9, 14, 20, 5, 9, 14, 20, 5, 9, 14, 20, 5, 9, 14, 20,
   4, 11, 16, 23, 4, 11, 16, 23, 4, 11, 16, 23, 4, 11, 16, 23,
   6, 10, 15, 21, 6, 10, 15, 21, 6, 10, 15, 21, 6, 10, 15, 21]

def md5F (i b c d : Nat) : Nat :=
  if i < 16 then (b &&& c) ||| (not32 b &&& d)
  else if i < 32 then (d &&& b) ||| (not32 d &&& c)
  else if i < 48 then b ^^^ c ^^^ d
  else c ^^^ (b ||| not32 d)

def md5G (i : Nat) : Nat :=
  if i < 16 then i
  else if i < 32 then (5 * i + 1) % 16
  else if i < 48 then (3 * i + 5) % 16
  else (7 * i) % 16

def md5Round (m : List Nat) (st : Nat × Nat × Nat × Nat) (i : Nat) :
    Nat × Nat × Nat × Nat :=
  let a := st.1
  let b := st.2.1
  let c := st.2.2.1
  let d := st.2.2.2
  let f := (md5F i b c d + a + md5K.getD i 0 + m.getD (md5G i) 0) % m32
  (d, add32 b (rotl32 f (md5S.getD i 0)), b, c)

def md5Block (st : Nat × Nat × Nat × Nat) (m : List Nat) : Nat × Nat × Nat × Nat :=
  let r := (List.range 64).foldl (md5Round m) st
  (add32 st.1 r.1, add32 st.2.1 r.2.1, add32 st.2.2.1 r.2.2.1, add32 st.2.2.2 r.2.2.2)

def toLEBytes : Nat → Nat → List Nat
  | _, 0 => []
  | n, count + 1 => n % 256 :: toLEBytes (n / 256) count

/-- Splitting into 64-byte blocks, driven by a fuel that the caller sets to
the list length; since every step consumes at least one element, the fuel
never runs out on the actual argument. -/
def chunk64Aux : Nat → List Nat → List (List Nat)
  | 0, _ => []
  | _ + 1, [] => []
  | fuel + 1, b :: rest => ((b :: rest).take 64) :: chunk64Aux fuel ((b :: rest).drop 64)

def chunk64 (l : List Nat) : List (List Nat) := chunk64Aux l.length l

def leWords : List Nat → List Nat
  | b0 :: b1 :: b2 :: b3 :: rest =>
      (b0 + 256 * (b1 + 256 * (b2 + 256 * b3))) :: leWords rest
  | _ => []

def md5Pad (msg : List Nat) : List Nat :=
  let z := (120 - (msg.length + 1) % 64) % 64
  msg ++ 128 :: List.replicate z 0 ++ toLEBytes ((msg.length * 8) % (2 ^ 64)) 8

def md5Bytes (msg : List Nat) : List Nat :=
  let blocks := (chunk64 (md5Pad msg)).map leWords
  let st := blocks.foldl md5Block (0x67452301, 0xefcdab89, 0x98badcfe, 0x10325476)
  toLEBytes st.1 4 ++ toLEBytes st.2.1 4 ++ toLEBytes st.2.2.1 4 ++ toLEBytes st.2.2.2 4

def hexDigits : List Char := "0123456789abcdef".toList

def hexChar (n : Nat) : Char := hexDigits.getD n '0'

def byteHex (b : Nat) : List Char := [hexChar (b / 16), hexChar (b % 16)]

/-- hashlib.md5(...).hexdigest() of a byte list. -/
def md5HexDigest (msg : List Nat) : List Char :=
  (md5Bytes msg).foldr (fun b acc => byteHex b ++ acc) []

/-- The query hash the archiver computes:
hashlib.md5(query.encode()).hexdigest()[:8]. -/
def md5Hex8 (q : List Char) : List Char := (md5HexDigest (utf8Encode q)).take 8

/-! ### Configuration constants of archive_site.py -/

def DOMAINL : List Char := "ccspace.org".toList

def wwwDomainL : List Char := "www.ccspace.org".toList

def snapshotTimestampL : List Char := "20170509211847".toList

def phpE : List Char := ".php".toList

def htmlE : List Char := ".html".toList

def idxHtmlL : List Char := "index.html".toList

def slashIdxHtmlL : List Char := "/index.html".toList

def actionK : List Char := "action".toList

def qActEq : List Char := "?action=".toList

/-! ### WaybackArchiver.url_to_local_path and convert_php_url_to_html_path

The php_to_html cache of the archiver instance is modelled as an
association list with Python dict update semantics (replace in place when
the key exists, append otherwise).
-/

abbrev Cache := List (List Char × List Char)

def alUpdate (k v : List Char) (m : Cache) : Cache :=
  if m.any (fun kv => kv.1 == k) then
    m.map (fun kv => if kv.1 = k then (k, v) else kv)
  else m ++ [(k, v)]

/-- The regex substitution re.sub of the pattern matching every character
outside word characters and dash by an underscore, applied to the action
value. -/
def isWordDash (c : Char) : Bool := c.isAlphanum || c == '_' || c == '-'

def sanitizeAction (a : List Char) : List Char :=
  a.map (fun c => if isWordDash c then c else '_')

/-- The path-component phase of url_to_local_path: strip slashes from the
ends, then map the empty path to index.html, a path ending in a slash
(unreachable after the strip, kept for fidelity) to path plus index.html,
and a path whose last segment has no dot to path plus slash index.html. -/
def pathPhase1 (parsedPath : List Char) : List Char :=
  let p0 := stripChar '/' parsedPath
  if p0 = [] then idxHtmlL
  else if endsWithL p0 ['/'] then p0 ++ idxHtmlL
  else if '.' ∉ lastSegL p0 then p0 ++ slashIdxHtmlL
  else p0

/-- The final dynamic-extension conversion of url_to_local_path:
path[:-4] + html when the path ends in the php extension. -/
def phpFix (p : List Char) : List Char :=
  if endsWithL p phpE then p.take (p.length - 4) ++ htmlE else p

/-- The relative-path part of url_to_local_path together with the updated
php_to_html cache; url_to_local_path itself joins the output directory in
front of the first component. -/
def urlToLocalRel (cache : Cache) (url : List Char) : List Char × Cache :=
  let parsed := urlparseL url
  let path1 := pathPhase1 parsed.path
  let generic : List Char × Cache :=
    let se := splitextL path1
    (se.1 ++ '_' :: (md5Hex8 parsed.query ++ se.2), cache)
  let pc : List Char × Cache :=
    if parsed.query ≠ [] then
      match firstQsVal parsed.query actionK with
      | some action =>
          if endsWithL path1 phpE then
            let actionClean := sanitizeAction action
            let baseDir := dirnameL path1
            let p2 :=
              if baseDir ≠ [] then baseDir ++ '/' :: (actionClean ++ htmlE)
              else actionClean ++ htmlE
            let phpPattern := parsed.path ++ qActEq ++ action
            (p2, alUpdate phpPattern p2 cache)
          else generic
      | none => generic
    else (path1, cache)
  (phpFix pc.1, pc.2)

/-- WaybackArchiver.url_to_local_path: the returned Path, rendered as the
joined string, plus the updated php_to_html cache. -/
def urlToLocalPath (outputDir : List Char) (cache : Cache) (url : List Char) :
    List Char × Cache :=
  let r := urlToLocalRel cache url
  (pyPathJoin outputDir r.1, r.2)

/-- The path both code paths derive for a dispatch URL with the given raw
path component and decoded action value. -/
def derivePath (p a : List Char) : List Char :=
  let ac := sanitizeAction a
  let bd := dirnameL (stripChar '/' p)
  if bd ≠ [] then bd ++ '/' :: (ac ++ htmlE) else ac ++ htmlE

/-- WaybackArchiver.convert_php_url_to_html_path. -/
def convertPhpUrlToHtmlPath (cache : Cache) (url : List Char) : Option (List Char) :=
  if url = [] then none
  else
    let parsed := urlparseL url
    let dispatch : Option (List Char) :=
      if parsed.query ≠ [] ∧ endsWithL parsed.path phpE then
        match firstQsVal parsed.query actionK with
        | some action =>
            let phpPattern := parsed.path ++ qActEq ++ action
            match cache.lookup phpPattern with
            | some v => some v
            | none =>
                let actionClean := sanitizeAction action
                let baseDir := dirnameL (stripChar '/' parsed.path)
                some (if baseDir ≠ [] then baseDir ++ '/' :: (actionClean ++ htmlE)
                      else actionClean ++ htmlE)
        | none => none
      else none
    match dispatch with
    | some r => some r
    | none =>
        if endsWithL parsed.path phpE then
          some (parsed.path.take (parsed.path.length - 4) ++ htmlE)
        else none

/-- Well-formedness of the php_to_html cache: every stored entry is the one
url_to_local_path would store for its key.  The empty cache is well formed
and the update performed by url_to_local_path preserves well-formedness, so
every cache state reachable in a run satisfies this predicate. -/
def wfCache (m : Cache) : Prop :=
  ∀ kv ∈ m, ∀ p a, kv.1 = p ++ qActEq ++ a → '?' ∉ p → kv.2 = derivePath p a

/-! ### WaybackArchiver.clean_url and the WAYBACK_PATTERN regex

The regex is matched as re.match matches it: anchored at the start, with
the leftmost backtracking semantics of the Python engine, which on this
pattern reduce to the deterministic scan implemented here (the optional
scheme alternatives exclude each other, the digit run and the lowercase
run are maximal, and the two alternatives of the capture group together
amount to taking the maximal run of characters outside whitespace, quotes
and angle brackets).  The second capture group and the first position after
the match are returned.
-/

def wbHostHttps : List Char := "https://web.archive.org/web/".toList

def wbHostHttp : List Char := "http://web.archive.org/web/".toList

def wbHostBare : List Char := "//web.archive.org/web/".toList

def waybackAfterHost (l : List Char) : Option (List Char) :=
  if startsWithL l wbHostHttps then some (l.drop wbHostHttps.length)
  else if startsWithL l wbHostHttp then some (l.drop wbHostHttp.length)
  else if startsWithL l wbHostBare then some (l.drop wbHostBare.length)
  else none

/-- The character class of the URL capture group: everything except ASCII
whitespace, double and single quotes and angle brackets. -/
def isUrlTokenChar (c : Char) : Bool :=
  !(c == ' ' || c == Char.ofNat 9 || c == Char.ofNat 10 || c == Char.ofNat 13 ||
    c == Char.ofNat 11 || c == Char.ofNat 12 || c == '"' || c == Char.ofNat 39 ||
    c == '<' || c == '>')

def waybackMatchFull (l : List Char) : Option (List Char × List Char) :=
  match waybackAfterHost l with
  | none => none
  | some r =>
      let ds := r.takeWhile (fun c => c.isDigit)
      if ds = [] then none
      else
        let r1 := r.drop ds.length
        let lows := r1.takeWhile (fun c => 'a' ≤ c && c ≤ 'z')
        let r2 := r1.drop lows.length
        let afterTs : Option (List Char) :=
          if startsWithL r2 ['_', '/'] then some (r2.drop 2)
          else if startsWithL r1 ['/'] then some (r1.drop 1)
          else none
        match afterTs with
        | none => none
        | some r3 =>
            let g2 := r3.takeWhile isUrlTokenChar
            if g2 = [] then none else some (g2, r3.drop g2.length)

def waybackMatch (l : List Char) : Option (List Char) :=
  (waybackMatchFull l).map (fun p => p.1)

/-- The non-fetchable scheme prefixes skipped by clean_url. -/
abbrev schemeSkip (url : List Char) : Prop :=
  startsWithL url ("data:".toList) ∨ startsWithL url ("javascript:".toList) ∨
  startsWithL url ("mailto:".toList) ∨ startsWithL url ("tel:".toList) ∨
  startsWithL url ['#'] ∨ startsWithL url ("about:".toList)

/-- WaybackArchiver.clean_url. -/
def cleanUrl (url : List Char) : Option (List Char) :=
  if url = [] then none
  else if schemeSkip url then none
  else
    match waybackMatch url with
    | some original =>
        if startsWithL original ("http".toList) then some original
        else some ("https://".toList ++ original)
    | none =>
        if startsWithL url ['/', '/'] then some ("https:".toList ++ url)
        else if startsWithL url ("http://".toList) ∨ startsWithL url ("https://".toList) then
          some url
        else some url

/-- clean_url lifted to a possibly absent input, with a null input giving a
null output. -/
def cleanUrlOpt (u : Option (List Char)) : Option (List Char) := u.bind cleanUrl

/-! ### WaybackArchiver.download_content

The state is the downloaded_urls seen-set; the network response is modelled
as an oracle value: some (status, body) for an HTTP response, none for a
transport error (the exception branch).  The Python function never raises:
the request is inside try/except and every failure path falls through to
return None.  The text and content views of a successful body are modelled
by the same body value.
-/

def downloadContent (seen : List (List Char)) (resp : Option (Nat × List Char))
    (ts url : List Char) : Option (List Char) × List (List Char) :=
  let key := ts ++ '/' :: url
  if key ∈ seen then (none, seen)
  else
    match resp with
    | some sb => if sb.1 = 200 then (some sb.2, key :: seen) else (none, seen)
    | none => (none, seen)

/-! ### Substring containment (the Python in operator on strings) -/

abbrev containsSub (l s : List Char) : Prop := s <:+: l

def containsSubB (l s : List Char) : Bool := decide (s <:+: l)

/-! ### The css url pattern and its substitution

The regex url parenthesis, optional quote, one or more characters outside
closing parenthesis and quotes, optional quote, closing parenthesis is
matched by the deterministic scan below: the greedy group can contain no
quote and no closing parenthesis, so the optional quotes and the closing
parenthesis are forced.  re.sub scans left to right, skipping one character
after a failed attempt and the whole match after a successful one.
-/

def cssQuote (c : Char) : Bool := c == '"' || c == Char.ofNat 39

def cssGroupChar (c : Char) : Bool := !(c == ')' || c == '"' || c == Char.ofNat 39)

/-- Attempt to match the css url pattern at the head of the text; on success
return the captured group and the length of the whole match minus the five
characters of the fixed url parenthesis prefix and closing parenthesis
(the optional quotes plus the group length). -/
def tryCssUrlAt (l : List Char) : Option (List Char × Nat) :=
  if startsWithL l ("url(".toList) then
    let r1 := l.drop 4
    let q1 := if (r1.head?.map cssQuote).getD false then 1 else 0
    let r2 := r1.drop q1
    let g := r2.takeWhile cssGroupChar
    if g = [] then none
    else
      let r3 := r2.drop g.length
      let q2 := if (r3.head?.map cssQuote).getD false then 1 else 0
      match r3.drop q2 with
      | ')' :: _ => some (g, q1 + g.length + q2)
      | _ => none
  else none

/-- re.sub of the css url pattern with a replacer that may keep the original
matched text (modelled by the replacer returning none); the whole match
spans the returned variable length plus five.  The scan is driven by a fuel
the wrapper sets to the text length; every step consumes at least one
character (a match consumes at least five), so the fuel never runs out on
the actual argument. -/
def cssUrlSubAux (f : List Char → Option (List Char)) : Nat → List Char → List Char
  | 0, l => l
  | _ + 1, [] => []
  | fuel + 1, c :: rest =>
      match tryCssUrlAt (c :: rest) with
      | some gk =>
          ((f gk.1).getD ((c :: rest).take (gk.2 + 5))) ++
            cssUrlSubAux f fuel ((c :: rest).drop (gk.2 + 5))
      | none => c :: cssUrlSubAux f fuel rest

def cssUrlSub (f : List Char → Option (List Char)) (l : List Char) : List Char :=
  cssUrlSubAux f l.length l

/-- Length bound for the wayback matcher: a successful match consumes at
least one character. -/
theorem waybackMatchFull_after_lt {l g a : List Char}
    (h : waybackMatchFull l = some (g, a)) : a.length < l.length := by
  unfold waybackMatchFull at h
  rcases hh : waybackAfterHost l with _ | r
  · rw [hh] at h; simp at h
  · rw [hh] at h
    have hr : r.length + 1 ≤ l.length := by
      unfold waybackAfterHost at hh
      split at hh
      · rename_i hs
        have := ((startsWithL_iff _ _).1 hs)
        rcases this with ⟨t, rfl⟩
        simp only [Option.some.injEq] at hh
        subst hh
        simp [wbHostHttps]
      · split at hh
        · rename_i hs
          have := ((startsWithL_iff _ _).1 hs)
          rcases this with ⟨t, rfl⟩
          simp only [Option.some.injEq] at hh
          subst hh
          simp [wbHostHttp]
        · split at hh
          · rename_i hs
            have := ((startsWithL_iff _ _).1 hs)
            rcases this with ⟨t, rfl⟩
            simp only [Option.some.injEq] at hh
            subst hh
            simp [wbHostBare]
          · simp at hh
    simp only at h
    split at h
    · simp at h
    · rcases ha : (if startsWithL ((r.drop (r.takeWhile (fun c => c.isDigit)).length).drop
          ((r.drop (r.takeWhile (fun c => c.isDigit)).length).takeWhile
            (fun c => decide ('a' ≤ c) && decide (c ≤ 'z'))).length) ['_', '/'] then
            some (((r.drop (r.takeWhile (fun c => c.isDigit)).length).drop
              ((r.drop (r.takeWhile (fun c => c.isDigit)).length).takeWhile
                (fun c => decide ('a' ≤ c) && decide (c ≤ 'z'))).length).drop 2)
          else if startsWithL (r.drop (r.takeWhile (fun c => c.isDigit)).length) ['/'] then
            some ((r.drop (r.takeWhile (fun c => c.isDigit)).length).drop 1)
          else none) with _ | r3
      · rw [ha] at h; simp at h
      · rw [ha] at h
        simp only at h
        split at h
        · simp at h
        · rename_i hg
          simp only [Option.some.injEq, Prod.mk.injEq] at h
          rcases h with ⟨hg2, ha2⟩
          have hr3 : r3.length ≤ r.length := by
            have : ∀ x : List Char, ∀ o : Option (List Char),
                (if startsWithL ((r.drop (r.takeWhile (fun c => c.isDigit)).length).drop
                  ((r.drop (r.takeWhile (fun c => c.isDigit)).length).takeWhile
                    (fun c => decide ('a' ≤ c) && decide (c ≤ 'z'))).length) ['_', '/'] then
                    some (((r.drop (r.takeWhile (fun c => c.isDigit)).length).drop
                      ((r.drop (r.takeWhile (fun c => c.isDigit)).length).takeWhile
                        (fun c => decide ('a' ≤ c) && decide (c ≤ 'z'))).length).drop 2)
                  else if startsWithL (r.drop (r.takeWhile (fun c => c.isDigit)).length) ['/'] then
                    some ((r.drop (r.takeWhile (fun c => c.isDigit)).length).drop 1)
                  else none) = o → o = some x → x.length ≤ r.length := by
              intro x o ho hx
              subst ho
              split at hx
              · simp only [Option.some.injEq] at hx
                subst hx
                simp only [List.length_drop]
                omega
              · split at hx
                · simp only [Option.some.injEq] at hx
                  subst hx
                  simp only [List.length_drop]
                  omega
                · simp at hx
            exact this r3 _ rfl ha
          have hgl : 1 ≤ (r3.takeWhile isUrlTokenChar).length := by
            rcases he : r3.takeWhile isUrlTokenChar with _ | ⟨c, t⟩
            · exact absurd he hg
            · simp
          have hta : (r3.takeWhile isUrlTokenChar).length ≤ r3.length :=
            List.Sublist.length_le (List.takeWhile_sublist _)
          subst ha2
          simp only [List.length_drop]
          omega

/-- The wayback-url substitution shared by strip_wayback_artifacts,
rewrite_css and the script cleaning pass: every match of WAYBACK_PATTERN is
replaced by its second capture group, prefixed by the secure scheme when the
group does not start with http. -/
def waybackSubAux : Nat → List Char → List Char
  | 0, l => l
  | _ + 1, [] => []
  | fuel + 1, c :: rest =>
      match waybackMatchFull (c :: rest) with
      | some ga =>
          (if startsWithL ga.1 ("http".toList) then ga.1
           else "https://".toList ++ ga.1) ++ waybackSubAux fuel ga.2
      | none => c :: waybackSubAux fuel rest

def waybackSubText (l : List Char) : List Char := waybackSubAux l.length l

/-! ### The url replacer of rewrite_css (and of the inline-style pass of
rewrite_html_links, which repeats the same code with the page path in place
of the css path) -/

def urlQuoted (s : List Char) : List Char := "url(\"".toList ++ s ++ "\")".toList

/-- The replace_url closure: root-absolute references resolve against the
output root and are made relative to the parent of the containing file;
otherwise the cleaned url is looked up in the global table; an uncleanable
url keeps the original matched text (none). -/
def cssReplaceUrl (table : Cache) (outputDir basePath : List Char) (u : List Char) :
    Option (List Char) :=
  if startsWithL u ['/'] ∧ ¬ startsWithL u ['/', '/'] then
    some (urlQuoted (relpathL (pyPathJoin outputDir (u.dropWhile (fun c => c == '/')))
      (pyParent basePath)))
  else
    match cleanUrl u with
    | some clean =>
        match table.lookup clean with
        | some lp => some (urlQuoted (relpathL lp (pyParent basePath)))
        | none => some (urlQuoted clean)
    | none => none

/-- WaybackArchiver.rewrite_css. -/
def rewriteCss (table : Cache) (outputDir cssPath : List Char) (css : List Char) :
    List Char :=
  cssUrlSub (cssReplaceUrl table outputDir cssPath) (waybackSubText css)

/-! ### The attribute passes of rewrite_html_links, as they apply to a
single attribute value -/

/-- The root-absolute conversion block, repeated in the source for href,
src, action, data and poster attributes: a value starting with a single
slash resolves against the output root and is made relative to the parent
of the page path. -/
def rootAbsFix (outputDir pagePath v : List Char) : List Char :=
  if startsWithL v ['/'] ∧ ¬ startsWithL v ['/', '/'] then
    relpathL (pyPathJoin outputDir (v.dropWhile (fun c => c == '/'))) (pyParent pagePath)
  else v

/-- The body of the url_attrs rewriting loop for one attribute value: clean
the wayback wrapping, use the global table when the cleaned url is known,
else dispatch-convert own-domain urls (falling back to the bare path), else
keep the cleaned external url. -/
def attrRewriteValue (cache table : Cache) (outputDir pagePath : List Char)
    (v : List Char) : List Char :=
  if v = [] then v
  else
    match cleanUrl v with
    | none => v
    | some clean =>
        match table.lookup clean with
        | some lp => relpathL lp (pyParent pagePath)
        | none =>
            if containsSub clean DOMAINL ∨ containsSub clean wwwDomainL then
              match convertPhpUrlToHtmlPath cache clean with
              | some hp =>
                  relpathL (pyPathJoin outputDir (hp.dropWhile (fun c => c == '/')))
                    (pyParent pagePath)
              | none =>
                  let pth := (urlparseL clean).path
                  if pth = [] then ['/'] else pth
            else clean

/-- The protocol-relative fix-up pass for src attributes: local-looking
double-slash values collapse to a bare path, external ones gain the secure
scheme. -/
def srcProtoRelFix (v : List Char) : List Char :=
  if startsWithL v ['/', '/'] then
    let remainder := v.drop 2
    if endsWithL remainder htmlE ∨ containsSub remainder (".html?".toList) then remainder
    else if '.' ∉ remainder.takeWhile (fun c => c != '/') then remainder
    else "https:".toList ++ v
  else v

/-- Python src.split on the scheme separator. -/
def splitSchemeSep : List Char → List (List Char)
  | [] => [[]]
  | ':' :: '/' :: '/' :: rest => [] :: splitSchemeSep rest
  | c :: rest =>
      match splitSchemeSep rest with
      | [] => [[c]]
      | h :: t => (c :: h) :: t

def afterLastSchemeSep (v : List Char) : List Char := (splitSchemeSep v).getLastD []

def absHtmlRest (v : List Char) : Option (List Char) :=
  if startsWithL v ("https://".toList) then some (v.drop 8)
  else if startsWithL v ("http://".toList) then some (v.drop 7)
  else none

/-- The malformed absolute-link pass for src attributes: a value of shape
scheme colon slash slash host dot html with no further slash collapses to
the part after the scheme separator. -/
def srcAbsHtmlFix (v : List Char) : List Char :=
  match absHtmlRest v with
  | some rest =>
      if rest.all (fun c => c != '/') ∧ endsWithL rest htmlE ∧ htmlE.length < rest.length then
        afterLastSchemeSep v
      else v
  | none => v

/-- The complete per-value pipeline an img src attribute passes through in
rewrite_html_links: the url_attrs rewriting loop, the php-extension fix for
src values, the protocol-relative fix, the malformed absolute-html fix, and
the root-absolute conversion, in source order.  The php fix on src values
is textually the same conversion as the final step of url_to_local_path,
so phpFix is reused. -/
def imgSrcRewrite (cache table : Cache) (outputDir pagePath : List Char)
    (v : List Char) : List Char :=
  rootAbsFix outputDir pagePath
    (srcAbsHtmlFix (srcProtoRelFix (phpFix
      (attrRewriteValue cache table outputDir pagePath v))))

/-! ### The page-discovery loop of WaybackArchiver.archive

The loop state keeps the components that drive control flow: the work
queue, the pages_to_download key set, the downloaded_pages set and the
page_count.  The fetch-and-extract composite (download_content, artifact
stripping and extract_page_links) is abstracted by an oracle mapping a
timestamp and url to none (fetch failure or falsy body) or to the list of
extracted page links.
-/

structure CrawlState where
  queue : List (List Char × List Char)
  pagesToDownload : List (List Char)
  downloadedPages : List (List Char)
  pageCount : Nat

def maxPages : Nat := 500

/-- The per-link enqueueing loop: a link not yet downloaded and not yet
known in pages_to_download is recorded and appended to the queue with the
snapshot timestamp. -/
def enqueueNew : List (List Char) → List (List Char) → List (List Char) →
    List (List Char × List Char) → List (List Char) × List (List Char × List Char)
  | [], _, ptd, q => (ptd, q)
  | l :: ls, downloaded, ptd, q =>
      if l ∈ downloaded ∨ l ∈ ptd then enqueueNew ls downloaded ptd q
      else enqueueNew ls downloaded (l :: ptd) (q ++ [(l, snapshotTimestampL)])

/-- The while loop of WaybackArchiver.archive lines 766 to 806. -/
def crawl (oracle : List Char → List Char → Option (List (List Char)))
    (s : CrawlState) : CrawlState :=
  match hq : s.queue with
  | [] => s
  | (url, ts) :: rest =>
      if s.pageCount < maxPages then
        if url ∈ s.downloadedPages then crawl oracle { s with queue := rest }
        else if ¬ (containsSub url DOMAINL ∨ containsSub url wwwDomainL) then
          crawl oracle { s with queue := rest }
        else
          match oracle ts url with
          | none => crawl oracle { s with queue := rest }
          | some links =>
              let d2 := url :: s.downloadedPages
              let pq := enqueueNew links d2 s.pagesToDownload rest
              crawl oracle { queue := pq.2, pagesToDownload := pq.1,
                             downloadedPages := d2, pageCount := s.pageCount + 1 }
      else s
termination_by (maxPages - s.pageCount, s.queue.length)
decreasing_by
  · apply Prod.Lex.right
    simp [hq]
  · apply Prod.Lex.right
    simp [hq]
  · apply Prod.Lex.right
    simp [hq]
  · apply Prod.Lex.left
    omega

/-- The substring-membership condition of extract_page_links line 719, the
filter through which discovered links reach the queue. -/
abbrev pageLinkDomainFilter (u : List Char) : Prop :=
  containsSub u DOMAINL ∨ containsSub u wwwDomainL

/-! ### The document-tree model for the comment-removal claims

BeautifulSoup documents are modelled as trees of elements, text nodes and
comment nodes; parsing itself is outside the model.  The passes of
rewrite_html_links split into element removals (archive-host ids and
classes, archive scripts and stylesheets), removal of every comment node,
and attribute or style-text rewriting, which only maps attribute lists and
text contents and never changes the kind of a node; the rewriting functions
are abstracted by parameters here since only kind preservation matters to
the claims about comments.
-/

inductive HNode where
  | elem (tag : List Char) (attrs : Cache) (children : List HNode)
  | textNode (s : List Char)
  | commentNode (s : List Char)

mutual

def hasCommentNode : HNode → Bool
  | .elem _ _ cs => hasCommentList cs
  | .textNode _ => false
  | .commentNode _ => true

def hasCommentList : List HNode → Bool
  | [] => false
  | n :: ns => hasCommentNode n || hasCommentList ns

end

mutual

/-- The comment-removal pass: soup.find_all of comment strings followed by
extract removes every comment node at every depth. -/
def removeCommentsNode : HNode → HNode
  | .elem t a cs => .elem t a (removeCommentsList cs)
  | .textNode s => .textNode s
  | .commentNode s => .commentNode s

def removeCommentsList : List HNode → List HNode
  | [] => []
  | .commentNode _ :: ns => removeCommentsList ns
  | n :: ns => removeCommentsNode n :: removeCommentsList ns

end

def startsWithCIb (l s : List Char) : Bool :=
  decide (startsWithL (l.map Char.toLower) (s.map Char.toLower))

def splitSpaces (l : List Char) : List (List Char) :=
  (splitOnChar ' ' l).filter (fun s => s != [])

/-- Element ids removed by rewrite_html_links: wm-, playback or donato
prefixes, case insensitively. -/
def wmIdMatchR (attrs : Cache) : Bool :=
  match attrs.lookup ("id".toList) with
  | some v => startsWithCIb v ("wm-".toList) || startsWithCIb v ("playback".toList) ||
      startsWithCIb v ("donato".toList)
  | none => false

/-- Element classes removed by rewrite_html_links: a class token with a wm-
or wb- prefix, case insensitively. -/
def wmClassMatchR (attrs : Cache) : Bool :=
  match attrs.lookup ("class".toList) with
  | some v => (splitSpaces v).any
      (fun c => startsWithCIb c ("wm-".toList) || startsWithCIb c ("wb-".toList))
  | none => false

/-- The script.string accessor: the single text child when there is exactly
one, else the empty default. -/
def nodeString : List HNode → List Char
  | [HNode.textNode s] => s
  | _ => []

def scriptArchiveMatch (tag : List Char) (attrs : Cache) (children : List HNode) : Bool :=
  tag == "script".toList &&
    (containsSubB ((attrs.lookup ("src".toList)).getD []) ("archive.org".toList) ||
     containsSubB ((attrs.lookup ("src".toList)).getD []) ("wombat".toList) ||
     containsSubB (nodeString children) ("archive.org".toList) ||
     containsSubB (nodeString children) ("__wm".toList) ||
     containsSubB (nodeString children) ("wombat".toList))

def linkArchiveMatch (tag : List Char) (attrs : Cache) : Bool :=
  tag == "link".toList &&
    containsSubB ((attrs.lookup ("href".toList)).getD []) ("archive.org".toList)

mutual

/-- The element-removal passes of rewrite_html_links ahead of comment
removal: wayback ids and classes, archive scripts, archive stylesheets. -/
def stripArchiveNode : HNode → Option HNode
  | .elem t a cs =>
      if wmIdMatchR a || wmClassMatchR a || scriptArchiveMatch t a cs ||
          linkArchiveMatch t a then none
      else some (.elem t a (stripArchiveList cs))
  | .textNode s => some (.textNode s)
  | .commentNode s => some (.commentNode s)

def stripArchiveList : List HNode → List HNode
  | [] => []
  | n :: ns =>
      match stripArchiveNode n with
      | some m => m :: stripArchiveList ns
      | none => stripArchiveList ns

end

mutual

/-- The attribute and style-text rewriting passes, abstracted: fa rewrites
an attribute list given the tag, ft rewrites text contents (the style-tag
string assignment); node kinds are never changed. -/
def mapAttrsNode (fa : List Char → Cache → Cache) (ft : List Char → List Char) :
    HNode → HNode
  | .elem t a cs => .elem t (fa t a) (mapAttrsList fa ft cs)
  | .textNode s => .textNode (ft s)
  | .commentNode s => .commentNode s

def mapAttrsList (fa : List Char → Cache → Cache) (ft : List Char → List Char) :
    List HNode → List HNode
  | [] => []
  | n :: ns => mapAttrsNode fa ft n :: mapAttrsList fa ft ns

end

/-- The tree-level pipeline of rewrite_html_links over the children list of
the soup document: element removals, then removal of every comment, then
attribute and style rewriting. -/
def rewriteHtmlModelDoc (fa : List Char → Cache → Cache) (ft : List Char → List Char)
    (doc : List HNode) : List HNode :=
  mapAttrsList fa ft (removeCommentsList (stripArchiveList doc))

/-- Element ids removed by extract_and_clean_urls: wm- or playback. -/
def wmIdMatchX (attrs : Cache) : Bool :=
  match attrs.lookup ("id".toList) with
  | some v => startsWithCIb v ("wm-".toList) || startsWithCIb v ("playback".toList)
  | none => false

/-- Element classes removed by extract_and_clean_urls: a wm- prefix. -/
def wmClassMatchX (attrs : Cache) : Bool :=
  match attrs.lookup ("class".toList) with
  | some v => (splitSpaces v).any (fun c => startsWithCIb c ("wm-".toList))
  | none => false

mutual

def stripWmNodeX : HNode → Option HNode
  | .elem t a cs =>
      if wmIdMatchX a || wmClassMatchX a then none
      else some (.elem t a (stripWmListX cs))
  | .textNode s => some (.textNode s)
  | .commentNode s => some (.commentNode s)

def stripWmListX : List HNode → List HNode
  | [] => []
  | n :: ns =>
      match stripWmNodeX n with
      | some m => m :: stripWmListX ns
      | none => stripWmListX ns

end

/-- The tree-level cleanup phase of extract_and_clean_urls before url
extraction, over the children list of the soup document: wayback element
removal, then removal of every comment. -/
def extractCleanModelDoc (doc : List HNode) : List HNode :=
  removeCommentsList (stripWmListX doc)

/-! ## Claim C9: download_content error handling and seen-set behaviour -/

/-- C9: download_content returns null and leaves the seen-set unchanged on a
repeat request for an already fetched (timestamp, url) pair (independently
of the network response, so no fetch is consulted), on any non-success HTTP
status, and on a transport error; after a successful fetch, a repeat call
for the same pair short-circuits to null.  The embedding is a total
function, reflecting that every failure path of the Python code is caught
and returns None rather than raising. -/
theorem c9_download_content_errors (seen : List (List Char))
    (resp : Option (Nat × List Char)) (ts url : List Char) :
    (ts ++ '/' :: url ∈ seen → ∀ r2, downloadContent seen r2 ts url = (none, seen))
    ∧ (∀ st body, resp = some (st, body) → st ≠ 200 →
        downloadContent seen resp ts url = (none, seen))
    ∧ (resp = none → downloadContent seen resp ts url = (none, seen))
    ∧ (∀ body seen2, downloadContent seen resp ts url = (some body, seen2) →
        ∀ r2, downloadContent seen2 r2 ts url = (none, seen2)) := by
  refine ⟨?_, ?_, ?_, ?_⟩
  · intro hmem r2
    unfold downloadContent
    rw [if_pos hmem]
  · rintro st body rfl hst
    unfold downloadContent
    by_cases hmem : ts ++ '/' :: url ∈ seen
    · rw [if_pos hmem]
    · rw [if_neg hmem]
      simp only [if_neg hst]
  · rintro rfl
    unfold downloadContent
    by_cases hmem : ts ++ '/' :: url ∈ seen
    · rw [if_pos hmem]
    · rw [if_neg hmem]
  · intro body seen2 hsucc r2
    unfold downloadContent at hsucc ⊢
    by_cases hmem : ts ++ '/' :: url ∈ seen
    · rw [if_pos hmem] at hsucc
      simp at hsucc
    · rw [if_neg hmem] at hsucc
      rcases resp with _ | sb
      · simp at hsucc
      · by_cases hst : sb.1 = 200
        · simp only [if_pos hst, Prod.mk.injEq] at hsucc
          have hs2 : seen2 = (ts ++ '/' :: url) :: seen := hsucc.2.symm
          subst hs2
          rw [if_pos (by simp)]
        · simp [if_neg hst] at hsucc

/-- Witness for C9 at concrete inputs: a 404 response yields null with the
seen-set unchanged, and a repeat request for a pair already in the seen-set
yields null for every possible network response. -/
theorem c9_download_content_errors_witness :
    downloadContent [] (some (404, ("x".toList))) ("20170509211847".toList)
        ("http://www.ccspace.org/".toList) =
      (none, []) ∧
    (∀ r2, downloadContent
        [("20170509211847/http://www.ccspace.org/".toList)] r2
        ("20170509211847".toList) ("http://www.ccspace.org/".toList) =
      (none, [("20170509211847/http://www.ccspace.org/".toList)])) := by
  refine ⟨?_, fun r2 => ?_⟩
  · exact (c9_download_content_errors [] (some (404, ("x".toList))) _ _).2.1 404 _ rfl
      (by decide)
  · exact (c9_download_content_errors _ r2 _ _).1 (by decide) r2

/-! ## Claim C3: idempotence of clean_url -/

theorem startsWith_cons_ne {s2 t : List Char} {c d : Char} (hne : c ≠ d) :
    ¬ startsWithL (c :: t) (d :: s2) := by
  intro hc
  exact hne (startsWithL_head (show startsWithL (c :: t) (c :: []) by
    simp [startsWithL, List.take]) hc)

theorem not_schemeSkip_h (t : List Char) : ¬ schemeSkip ('h' :: t) := by
  intro hc
  rcases hc with hc | hc | hc | hc | hc | hc
  · exact startsWith_cons_ne (by decide) hc
  · exact startsWith_cons_ne (by decide) hc
  · exact startsWith_cons_ne (by decide) hc
  · exact startsWith_cons_ne (by decide) hc
  · exact startsWith_cons_ne (by decide) hc
  · exact startsWith_cons_ne (by decide) hc

/-- A url that is nonempty, has no skipped scheme, does not match the
wayback pattern and is not protocol-relative comes back from clean_url
unchanged. -/
theorem cleanUrl_fix (r : List Char) (h0 : r ≠ []) (h1 : ¬ schemeSkip r)
    (hwb : waybackMatch r = none) (h2 : ¬ startsWithL r ['/', '/']) :
    cleanUrl r = some r := by
  unfold cleanUrl
  rw [if_neg h0, if_neg h1, hwb]
  rw [if_neg h2]
  split
  · rename_i heq
    exact absurd heq (by simp)
  · split <;> rfl

/-- Specialisation to urls starting with the letter h, which covers every
value clean_url can produce out of its rewriting branches. -/
theorem cleanUrl_fix_h (t : List Char) (hwb : waybackMatch ('h' :: t) = none) :
    cleanUrl ('h' :: t) = some ('h' :: t) :=
  cleanUrl_fix _ (by simp) (not_schemeSkip_h t) hwb (startsWith_cons_ne (by decide))

/-- C3 counterexample: clean_url is not idempotent.  A doubly wrapped
replay url is unwrapped one layer per application, so applying clean_url
twice differs from applying it once. -/
theorem c3_clean_url_idempotent_counterexample :
    cleanUrlOpt (cleanUrl
      ("https://web.archive.org/web/1/https://web.archive.org/web/2/http://example.com/a".toList))
    ≠ cleanUrl
      ("https://web.archive.org/web/1/https://web.archive.org/web/2/http://example.com/a".toList) := by
  decide

/-- C3 as amended: clean_url is idempotent on every input whose un-wrapped
result does not itself match the replay-url pattern (nested wrapping is the
only exception), and a null result stays null under a second application. -/
theorem c3_clean_url_idempotent_unless_nested :
    (∀ u r, cleanUrl u = some r → waybackMatch r = none → cleanUrl r = some r)
    ∧ (∀ u, cleanUrl u = none → cleanUrlOpt (cleanUrl u) = none) := by
  constructor
  · intro u r h hwb
    unfold cleanUrl at h
    by_cases h0 : u = []
    · rw [if_pos h0] at h
      simp at h
    rw [if_neg h0] at h
    by_cases h1 : schemeSkip u
    · rw [if_pos h1] at h
      simp at h
    rw [if_neg h1] at h
    rcases hm : waybackMatch u with _ | orig
    · rw [hm] at h
      dsimp only at h
      by_cases h2 : startsWithL u ['/', '/']
      · rw [if_pos h2] at h
        have hr := Option.some.inj h
        rcases (startsWithL_iff _ _).1 h2 with ⟨t2, rfl⟩
        subst hr
        exact cleanUrl_fix_h _ hwb
      · rw [if_neg h2] at h
        have hr : u = r := by
          split at h <;> exact Option.some.inj h
        subst hr
        exact cleanUrl_fix _ h0 h1 hwb h2
    · rw [hm] at h
      dsimp only at h
      by_cases h3 : startsWithL orig ("http".toList)
      · rw [if_pos h3] at h
        have hr := Option.some.inj h
        rcases (startsWithL_iff _ _).1 h3 with ⟨t2, rfl⟩
        subst hr
        exact cleanUrl_fix_h _ hwb
      · rw [if_neg h3] at h
        have hr := Option.some.inj h
        subst hr
        exact cleanUrl_fix_h _ hwb
  · intro u h
    simp [cleanUrlOpt, h]

/-- Witness for C3 as amended: a protocol-relative external url gains the
secure scheme once and is then a fixed point of clean_url. -/
theorem c3_clean_url_idempotent_unless_nested_witness :
    cleanUrl ("//cdn.example.com/x".toList) = some ("https://cdn.example.com/x".toList) ∧
    cleanUrl ("https://cdn.example.com/x".toList) = some ("https://cdn.example.com/x".toList) := by
  refine ⟨by decide, ?_⟩
  exact c3_clean_url_idempotent_unless_nested.1 ("//cdn.example.com/x".toList) _ (by decide)
    (by decide)

/-! ## Claim C7: protocol-relative and malformed-absolute src normalization -/

/-- C7: through the complete attribute pipeline of rewrite_html_links, with
nothing recorded in the global table, the protocol-relative external image
reference to the cdn host is rewritten to its https form verbatim, and the
protocol-relative reference to a local html file collapses to the bare
relative path. -/
theorem c7_img_src_normalization :
    imgSrcRewrite [] [] ("output".toList) ("output/index.html".toList)
        ("//cdn.example.com/logo.png".toList) =
      ("https://cdn.example.com/logo.png".toList) ∧
    imgSrcRewrite [] [] ("output".toList) ("output/index.html".toList)
        ("//local-page.html".toList) =
      ("local-page.html".toList) := by
  constructor
  · decide
  · decide

/-! ## Claim C6: root-absolute references resolve against the output root -/

/-- C6: a root-absolute reference is resolved against the output root and
re-expressed relative to the containing file's own directory, both by the
css url replacer of rewrite_css (and of the inline-style pass, which shares
it) and by the attribute blocks of rewrite_html_links; in particular a css
file at output slash css slash style.css containing url of slash images
slash bg.png, with the image known in the global table, rewrites to the
quoted relative path with exactly one parent-directory segment. -/
theorem c6_root_absolute_rewrite :
    (∀ (table : Cache) (outputDir basePath u : List Char),
      startsWithL u ['/'] → ¬ startsWithL u ['/', '/'] →
      cssReplaceUrl table outputDir basePath u =
        some (urlQuoted (relpathL (pyPathJoin outputDir (u.dropWhile (fun c => c == '/')))
          (pyParent basePath))))
    ∧ (∀ (outputDir pagePath v : List Char),
      startsWithL v ['/'] → ¬ startsWithL v ['/', '/'] →
      rootAbsFix outputDir pagePath v =
        relpathL (pyPathJoin outputDir (v.dropWhile (fun c => c == '/'))) (pyParent pagePath))
    ∧ rewriteCss
        [(("https://www.ccspace.org/images/bg.png".toList), ("output/images/bg.png".toList))]
        ("output".toList) ("output/css/style.css".toList)
        (".sel background-image: url(/images/bg.png); color: red".toList) =
      (".sel background-image: url(\"../images/bg.png\"); color: red".toList) ∧
    relpathL ("output/images/bg.png".toList) ("output/css".toList) =
      ("../images/bg.png".toList) := by
  refine ⟨?_, ?_, by decide, by decide⟩
  · intro table outputDir basePath u h1 h2
    unfold cssReplaceUrl
    rw [if_pos ⟨h1, h2⟩]
  · intro outputDir pagePath v h1 h2
    unfold rootAbsFix
    rw [if_pos ⟨h1, h2⟩]

/-- Witness for C6: the general clauses applied at the concrete reference
slash images slash bg.png from the css directory. -/
theorem c6_root_absolute_rewrite_witness :
    cssReplaceUrl [] ("output".toList) ("output/css/style.css".toList)
        ("/images/bg.png".toList) =
      some (("url(\"../images/bg.png\")".toList)) ∧
    rootAbsFix ("output".toList) ("output/css/style.css".toList)
        ("/images/bg.png".toList) = ("../images/bg.png".toList) := by
  constructor
  · rw [c6_root_absolute_rewrite.1 [] ("output".toList) ("output/css/style.css".toList)
      ("/images/bg.png".toList) (by decide) (by decide)]
    decide
  · rw [c6_root_absolute_rewrite.2.1 ("output".toList) ("output/css/style.css".toList)
      ("/images/bg.png".toList) (by decide) (by decide)]
    decide

/-! ## Claim C10: the rewriter removes every comment node -/

theorem hasComment_removeCommentsList : ∀ ns : List HNode,
    hasCommentList (removeCommentsList ns) = false
  | [] => rfl
  | .commentNode s :: ns => by
      simpa [removeCommentsList] using hasComment_removeCommentsList ns
  | .elem t a cs :: ns => by
      simp [removeCommentsList, removeCommentsNode, hasCommentList, hasCommentNode,
        hasComment_removeCommentsList cs, hasComment_removeCommentsList ns]
  | .textNode s :: ns => by
      simp [removeCommentsList, removeCommentsNode, hasCommentList, hasCommentNode,
        hasComment_removeCommentsList ns]

theorem hasComment_mapAttrsList (fa : List Char → Cache → Cache)
    (ft : List Char → List Char) : ∀ ns : List HNode,
    hasCommentList (mapAttrsList fa ft ns) = hasCommentList ns
  | [] => rfl
  | .elem t a cs :: ns => by
      simp [mapAttrsList, mapAttrsNode, hasCommentList, hasCommentNode,
        hasComment_mapAttrsList fa ft cs, hasComment_mapAttrsList fa ft ns]
  | .textNode s :: ns => by
      simp [mapAttrsList, mapAttrsNode, hasCommentList, hasCommentNode,
        hasComment_mapAttrsList fa ft ns]
  | .commentNode s :: ns => by
      simp [mapAttrsList, mapAttrsNode, hasCommentList, hasCommentNode,
        hasComment_mapAttrsList fa ft ns]

/-- C10: the document tree produced by the rewrite_html_links pipeline
contains no comment node at all, whatever the input tree and whatever the
attribute and style rewriting functions do, and likewise the tree
extract_and_clean_urls works on after its cleanup phase: the comment
removal pass removes every html comment, the original site's own comments
included, and no later pass reintroduces one. -/
theorem c10_no_comment_nodes :
    (∀ (fa : List Char → Cache → Cache) (ft : List Char → List Char) (doc : List HNode),
      hasCommentList (rewriteHtmlModelDoc fa ft doc) = false)
    ∧ (∀ doc : List HNode, hasCommentList (extractCleanModelDoc doc) = false) := by
  constructor
  · intro fa ft doc
    unfold rewriteHtmlModelDoc
    rw [hasComment_mapAttrsList, hasComment_removeCommentsList]
  · intro doc
    unfold extractCleanModelDoc
    rw [hasComment_removeCommentsList]

/-! ## Claims C4 and C5: the page-discovery loop -/

theorem crawl_queue_nil (oracle : List Char → List Char → Option (List (List Char)))
    (s : CrawlState) (h : s.queue = []) : crawl oracle s = s := by
  unfold crawl
  split
  · rfl
  · rename_i url ts rest heq
    rw [h] at heq
    cases heq

theorem crawl_capped (oracle : List Char → List Char → Option (List (List Char)))
    (s : CrawlState) (h : ¬ s.pageCount < maxPages) : crawl oracle s = s := by
  unfold crawl
  split
  · rfl
  · rw [if_neg h]

/-- One unfolding of the loop body at a nonempty queue below the cap. -/
theorem crawl_cons (oracle : List Char → List Char → Option (List (List Char)))
    (s : CrawlState) (url ts : List Char) (rest : List (List Char × List Char))
    (hq : s.queue = (url, ts) :: rest) (hc : s.pageCount < maxPages) :
    crawl oracle s =
      if url ∈ s.downloadedPages then crawl oracle { s with queue := rest }
      else if ¬ (containsSub url DOMAINL ∨ containsSub url wwwDomainL) then
        crawl oracle { s with queue := rest }
      else
        match oracle ts url with
        | none => crawl oracle { s with queue := rest }
        | some links =>
            let d2 := url :: s.downloadedPages
            let pq := enqueueNew links d2 s.pagesToDownload rest
            crawl oracle { queue := pq.2, pagesToDownload := pq.1,
                           downloadedPages := d2, pageCount := s.pageCount + 1 } := by
  conv_lhs => rw [crawl]
  split
  · rename_i heq
    rw [hq] at heq
    cases heq
  · rename_i url2 ts2 rest2 heq
    rw [hq] at heq
    cases heq
    rw [if_pos hc]

/-- The three invariants of the loop proved in one descent: the loop only
stops with an empty queue or at the cap; the page count never exceeds the
cap it started under; and every url added to downloaded_pages passed the
substring-containment domain check. -/
theorem crawl_master (oracle : List Char → List Char → Option (List (List Char))) :
    ∀ a b (s : CrawlState), maxPages - s.pageCount ≤ a → s.queue.length ≤ b →
      ((crawl oracle s).queue = [] ∨ maxPages ≤ (crawl oracle s).pageCount)
      ∧ (crawl oracle s).pageCount ≤ max s.pageCount maxPages
      ∧ ((∀ u ∈ s.downloadedPages, pageLinkDomainFilter u) →
          ∀ u ∈ (crawl oracle s).downloadedPages, pageLinkDomainFilter u) := by
  intro a
  induction a with
  | zero =>
      intro b s ha _
      have hc : ¬ s.pageCount < maxPages := by omega
      rw [crawl_capped oracle s hc]
      exact ⟨Or.inr (by omega), by omega, fun h => h⟩
  | succ a iha =>
      intro b
      induction b with
      | zero =>
          intro s _ hb
          have hq : s.queue = [] := by
            cases hs : s.queue with
            | nil => rfl
            | cons x xs => rw [hs] at hb; simp at hb
          rw [crawl_queue_nil oracle s hq]
          exact ⟨Or.inl hq, by omega, fun h => h⟩
      | succ b ihb =>
          intro s ha hb
          cases hs : s.queue with
          | nil =>
              rw [crawl_queue_nil oracle s hs]
              exact ⟨Or.inl hs, by omega, fun h => h⟩
          | cons p rest =>
              rcases p with ⟨url, ts⟩
              by_cases hc : s.pageCount < maxPages
              · rw [crawl_cons oracle s url ts rest hs hc]
                have hrest : rest.length ≤ b := by
                  rw [hs] at hb
                  simp only [List.length_cons] at hb
                  omega
                by_cases hd : url ∈ s.downloadedPages
                · rw [if_pos hd]
                  exact ihb { s with queue := rest } (by simpa using ha) hrest
                · rw [if_neg hd]
                  by_cases hdom : containsSub url DOMAINL ∨ containsSub url wwwDomainL
                  · rw [if_neg (not_not_intro hdom)]
                    rcases ho : oracle ts url with _ | links
                    · dsimp only
                      exact ihb { s with queue := rest } (by simpa using ha) hrest
                    · dsimp only
                      have hstep := iha (enqueueNew links (url :: s.downloadedPages)
                        s.pagesToDownload rest).2.length
                        { queue := (enqueueNew links (url :: s.downloadedPages)
                            s.pagesToDownload rest).2,
                          pagesToDownload := (enqueueNew links (url :: s.downloadedPages)
                            s.pagesToDownload rest).1,
                          downloadedPages := url :: s.downloadedPages,
                          pageCount := s.pageCount + 1 }
                        (by simp only []; omega) (Nat.le_refl _)
                      refine ⟨hstep.1, ?_, ?_⟩
                      · have h2 := hstep.2.1
                        simp only [] at h2
                        simp only [Nat.max_def] at h2 ⊢
                        split at h2 <;> split <;> omega
                      · intro hall u hu
                        refine hstep.2.2 ?_ u hu
                        intro v hv
                        rcases List.mem_cons.1 hv with hv | hv
                        · subst hv
                          exact hdom
                        · exact hall v hv
                  · rw [if_pos hdom]
                    exact ihb { s with queue := rest } (by simpa using ha) hrest
              · rw [crawl_capped oracle s hc]
                exact ⟨Or.inr (by omega), by omega, fun h => h⟩

/-- C5: the page-discovery loop always terminates (the loop body is a total
function defined by a well-founded descent on the pair of remaining page
budget and queue length, for every starting state and every oracle of fetch
outcomes); it stops only with an empty queue or with the page count at the
hard cap of 500, and a run starting from a zero count never counts more
than 500 successfully fetched pages, the count being incremented exactly
once per successful fetch. -/
theorem c5_crawl_terminates_capped
    (oracle : List Char → List Char → Option (List (List Char))) (s : CrawlState) :
    ((crawl oracle s).queue = [] ∨ maxPages ≤ (crawl oracle s).pageCount)
    ∧ (s.pageCount = 0 → (crawl oracle s).pageCount ≤ maxPages)
    ∧ maxPages = 500 := by
  have h := crawl_master oracle (maxPages - s.pageCount) s.queue.length s (Nat.le_refl _)
    (Nat.le_refl _)
  refine ⟨h.1, fun h0 => ?_, rfl⟩
  have h2 := h.2.1
  omega

/-- Witness for C5: a concrete singleton-queue run with a failing fetch
oracle stops with an empty queue and a zero page count. -/
theorem c5_crawl_terminates_capped_witness :
    (0 : Nat) = 0 ∧
    ((crawl (fun _ _ => none)
        ⟨[(("http://www.ccspace.org/".toList), snapshotTimestampL)],
          [("http://www.ccspace.org/".toList)], [], 0⟩).queue = [] ∨
      maxPages ≤ (crawl (fun _ _ => none)
        ⟨[(("http://www.ccspace.org/".toList), snapshotTimestampL)],
          [("http://www.ccspace.org/".toList)], [], 0⟩).pageCount) ∧
    (crawl (fun _ _ => none)
        ⟨[(("http://www.ccspace.org/".toList), snapshotTimestampL)],
          [("http://www.ccspace.org/".toList)], [], 0⟩).pageCount ≤ maxPages := by
  refine ⟨rfl, ?_, ?_⟩
  · exact (c5_crawl_terminates_capped (fun _ _ => none) _).1
  · exact (c5_crawl_terminates_capped (fun _ _ => none) _).2.1 rfl

/-- A third-party url whose query value contains the target domain name. -/
def evilUrl : List Char := "http://evil.example.com/?ref=ccspace.org".toList

def goodUrl : List Char := "http://www.ccspace.org/".toList

/-- An oracle under which the entry page links to the third-party url. -/
def evilOracle : List Char → List Char → Option (List (List Char)) :=
  fun _ u => if u = goodUrl then some [evilUrl] else some []

def evilStart : CrawlState :=
  ⟨[(goodUrl, snapshotTimestampL)], [goodUrl], [], 0⟩

/-- C4 counterexample: the loop fetches a page whose hostname is neither the
configured domain nor its www variant, because the check is substring
containment over the whole url, not a hostname check: the third-party url
passes the extract_page_links domain filter, is enqueued, passes the loop's
skip check and ends up downloaded, while its hostname is evil.example.com. -/
theorem c4_hostname_check_counterexample :
    evilUrl ∈ (crawl evilOracle evilStart).downloadedPages ∧
    hostnameOf evilUrl ≠ some DOMAINL ∧
    hostnameOf evilUrl ≠ some (("www.".toList) ++ DOMAINL) ∧
    pageLinkDomainFilter evilUrl := by
  have hstep : (crawl evilOracle evilStart).downloadedPages = [evilUrl, goodUrl] := by
    rw [crawl_cons evilOracle evilStart goodUrl snapshotTimestampL [] rfl (by decide)]
    rw [if_neg (by decide), if_neg (by decide)]
    have ho : evilOracle snapshotTimestampL goodUrl = some [evilUrl] := by
      unfold evilOracle
      rw [if_pos rfl]
    rw [ho]
    dsimp only
    have he : enqueueNew [evilUrl] (goodUrl :: evilStart.downloadedPages)
        evilStart.pagesToDownload [] = ([evilUrl, goodUrl], [(evilUrl, snapshotTimestampL)]) := by
      unfold enqueueNew
      rw [if_neg (by decide)]
      rfl
    rw [he]
    rw [crawl_cons _ _ evilUrl snapshotTimestampL [] rfl (by decide)]
    rw [if_neg (by decide), if_neg (by decide)]
    have ho2 : evilOracle snapshotTimestampL evilUrl = some [] := by
      unfold evilOracle
      rw [if_neg (by decide)]
    rw [ho2]
    dsimp only [enqueueNew]
    rw [crawl_queue_nil _ _ rfl]
    rfl
  rw [hstep]
  refine ⟨by decide, by decide, by decide, by decide⟩

/-- C4 as amended: the same-site check of the discovery loop is substring
containment of the configured domain or its www variant in the whole url
(the www variant being subsumed by the bare domain): a popped url that does
not contain the domain as a substring is skipped without being fetched, and
for every reachable state of the loop every downloaded page url contains
the domain or its www variant as a substring; hostnames play no role, so a
third-party url containing the domain elsewhere is treated as same-site. -/
theorem c4_same_site_check_is_substring_containment :
    (∀ (oracle : List Char → List Char → Option (List (List Char))) (s : CrawlState)
        (url ts : List Char) (rest : List (List Char × List Char)),
      s.queue = (url, ts) :: rest → s.pageCount < maxPages →
      ¬ (containsSub url DOMAINL ∨ containsSub url wwwDomainL) →
      crawl oracle s = crawl oracle { s with queue := rest })
    ∧ (∀ (oracle : List Char → List Char → Option (List (List Char))) (s : CrawlState),
        (∀ u ∈ s.downloadedPages, pageLinkDomainFilter u) →
        ∀ u ∈ (crawl oracle s).downloadedPages, pageLinkDomainFilter u) := by
  constructor
  · intro oracle s url ts rest hq hc hdom
    rw [crawl_cons oracle s url ts rest hq hc]
    by_cases hd : url ∈ s.downloadedPages
    · rw [if_pos hd]
    · rw [if_neg hd, if_pos hdom]
  · intro oracle s hall
    exact (crawl_master oracle (maxPages - s.pageCount) s.queue.length s (Nat.le_refl _)
      (Nat.le_refl _)).2.2 hall

/-- Witness for C4 as amended: a queue headed by a url without the domain
substring is skipped, and the invariant holds on the concrete
counterexample run, whose downloaded urls both contain the domain. -/
theorem c4_same_site_check_is_substring_containment_witness :
    crawl evilOracle
        ⟨[(("http://other.example.net/a".toList), snapshotTimestampL)], [], [], 0⟩ =
      crawl evilOracle ⟨[], [], [], 0⟩ ∧
    (∀ u ∈ (crawl evilOracle evilStart).downloadedPages, pageLinkDomainFilter u) := by
  constructor
  · exact c4_same_site_check_is_substring_containment.1 evilOracle _ _ _ [] rfl (by decide)
      (by decide)
  · exact c4_same_site_check_is_substring_containment.2 evilOracle evilStart (by decide)

/-! ## Support lemmas for the path-mapper claims -/

theorem startsWithL_length {l s : List Char} (h : startsWithL l s) : s.length ≤ l.length := by
  rcases (startsWithL_iff _ _).1 h with ⟨t, rfl⟩
  simp

theorem endsWithL_length {l s : List Char} (h : endsWithL l s) : s.length ≤ l.length := h.1

/-- The path component of a split url contains no question mark: it is cut
off at the first question mark (or has none). -/
theorem qmark_not_mem_splitQuery (l : List Char) : '?' ∉ (splitQuery l).1 := by
  unfold splitQuery
  rcases h : splitOnceChar '?' l with _ | ab
  · exact splitOnceChar_none h
  · rcases ab with ⟨a, b⟩
    exact (splitOnceChar_some h).2

theorem lastSegL_subset (p : List Char) : ∀ c ∈ lastSegL p, c ∈ p := by
  intro c hc
  unfold lastSegL at hc
  rw [List.mem_reverse] at hc
  have h2 : c ∈ p.reverse := (List.takeWhile_sublist _).subset hc
  exact List.mem_reverse.1 h2

theorem qmark_not_mem_splitparams {p : List Char} (h : '?' ∉ p) :
    '?' ∉ (splitparamsL p).1 := by
  unfold splitparamsL
  by_cases hs : '/' ∈ p
  · rw [if_pos hs]
    dsimp only
    rcases hsc : splitOnceChar ';' (lastSegL p) with _ | ⟨a, b⟩
    · exact h
    · dsimp only
      intro hc
      rcases List.mem_append.1 hc with hc | hc
      · exact h ((List.take_sublist _ _).subset hc)
      · have ha : '?' ∈ lastSegL p := by
          rcases splitOnceChar_some hsc with ⟨he, _⟩
          rw [he]
          exact List.mem_append.2 (Or.inl hc)
        exact h (lastSegL_subset p _ ha)
  · rw [if_neg hs]
    rcases hsc : splitOnceChar ';' p with _ | ⟨a, b⟩
    · exact h
    · dsimp only
      intro hc
      rcases splitOnceChar_some hsc with ⟨he, _⟩
      exact h (by rw [he]; exact List.mem_append.2 (Or.inl hc))

theorem qmark_not_mem_path (url : List Char) : '?' ∉ (urlparseL url).path := by
  have h1 : '?' ∉ (urlsplitL url).path := qmark_not_mem_splitQuery _
  exact qmark_not_mem_splitparams h1

/-- Uniqueness of the php_to_html key decomposition: the key determines the
path and the action, because the path parts contain no question mark and
the separator starts with one. -/
theorem append_qmark_inj : ∀ (p1 p2 s1 s2 : List Char),
    (∀ c ∈ p1, c ≠ '?') → (∀ c ∈ p2, c ≠ '?') →
    p1 ++ '?' :: s1 = p2 ++ '?' :: s2 → p1 = p2 ∧ s1 = s2 := by
  intro p1
  induction p1 with
  | nil =>
      intro p2 s1 s2 _ h2 he
      cases p2 with
      | nil => simpa using he
      | cons c t =>
          simp only [List.nil_append, List.cons_append, List.cons.injEq] at he
          exact absurd he.1.symm (h2 c (by simp))
  | cons c t ih =>
      intro p2 s1 s2 h1 h2 he
      cases p2 with
      | nil =>
          simp only [List.cons_append, List.nil_append, List.cons.injEq] at he
          exact absurd he.1 (h1 c (by simp))
      | cons d u =>
          simp only [List.cons_append, List.cons.injEq] at he
          rcases he with ⟨hcd, he⟩
          have := ih u s1 s2 (fun x hx => h1 x (by simp [hx])) (fun x hx => h2 x (by simp [hx])) he
          exact ⟨by simp [hcd, this.1], this.2⟩

theorem keyInj {p1 p2 a1 a2 : List Char} (h1 : '?' ∉ p1) (h2 : '?' ∉ p2)
    (he : p1 ++ qActEq ++ a1 = p2 ++ qActEq ++ a2) : p1 = p2 ∧ a1 = a2 := by
  have he2 : p1 ++ '?' :: (("action=".toList) ++ a1) = p2 ++ '?' :: (("action=".toList) ++ a2) := by
    calc p1 ++ '?' :: (("action=".toList) ++ a1) = p1 ++ qActEq ++ a1 := by
          simp [qActEq]
    _ = p2 ++ qActEq ++ a2 := he
    _ = p2 ++ '?' :: (("action=".toList) ++ a2) := by simp [qActEq]
  have hi := append_qmark_inj p1 p2 _ _ (fun c hc hq => h1 (hq ▸ hc))
    (fun c hc hq => h2 (hq ▸ hc)) he2
  exact ⟨hi.1, List.append_cancel_left hi.2⟩

/-! Suffix preservation through str.strip -/

theorem dropWhile_beq_suffix {c : Char} {d : Char} (t r : List Char) (h : (c == d) = false) :
    ∃ u, (t ++ c :: r).dropWhile (fun x => x == d) = u ++ c :: r :=
  dropWhile_suffix t r h

theorem stripChar_of_endsWith_php {p : List Char} (h : endsWithL p phpE) :
    stripChar '/' p = p.dropWhile (fun x => x == '/') ∧
      endsWithL (stripChar '/' p) phpE := by
  rcases (endsWithL_iff _ _).1 h with ⟨t, rfl⟩
  have hdot : (('.' : Char) == '/') = false := by decide
  rcases dropWhile_beq_suffix t ("php".toList) hdot with ⟨u, hu⟩
  show stripChar '/' (t ++ '.' :: ("php".toList)) =
      (t ++ '.' :: ("php".toList)).dropWhile (fun x => x == '/') ∧
    endsWithL (stripChar '/' (t ++ '.' :: ("php".toList))) ('.' :: ("php".toList))
  have hrev : (u ++ '.' :: ("php".toList)).reverse =
      'p' :: ('h' :: ('p' :: ('.' :: u.reverse))) := by simp
  have key : stripChar '/' (t ++ '.' :: ("php".toList)) = u ++ '.' :: ("php".toList) := by
    unfold stripChar
    rw [hu, hrev]
    rw [List.dropWhile_cons, if_neg (by decide)]
    simp
  constructor
  · rw [key, hu]
  · rw [key]
    exact (endsWithL_iff _ _).2 ⟨u, rfl⟩

theorem stripChar_no_trailing {c : Char} {x : List Char} (hne : stripChar c x ≠ []) :
    ¬ endsWithL (stripChar c x) [c] := by
  intro hc
  rcases (endsWithL_iff _ _).1 hc with ⟨t, ht⟩
  have hrev : (stripChar c x).reverse = c :: t.reverse := by rw [ht]; simp
  have hdw : (stripChar c x).reverse =
      ((x.dropWhile (fun y => y == c)).reverse).dropWhile (fun y => y == c) := by
    unfold stripChar
    rw [List.reverse_reverse]
  rw [hdw] at hrev
  have := dropWhile_head_false hrev
  simp at this

/-! Last-segment lemmas -/

theorem lastSegL_append {s : List Char} (t : List Char)
    (hs : ∀ c ∈ s, (c != '/') = true) : lastSegL (t ++ s) = lastSegL t ++ s := by
  unfold lastSegL
  rw [List.reverse_append]
  rw [takeWhile_append_all _ (fun c hc => hs c (List.mem_reverse.1 hc))]
  simp

theorem lastSegL_join (a b : List Char) : lastSegL (a ++ '/' :: b) = lastSegL b := by
  unfold lastSegL
  have : (a ++ '/' :: b).reverse = b.reverse ++ '/' :: a.reverse := by simp
  rw [this, takeWhile_append_stop _ _ (by decide)]

theorem htmlE_noslash : ∀ c ∈ htmlE, (c != '/') = true := by decide

theorem phpE_noslash : ∀ c ∈ phpE, (c != '/') = true := by decide

theorem idxHtml_noslash : ∀ c ∈ idxHtmlL, (c != '/') = true := by decide

theorem dot_mem_lastSegL_append_html (x : List Char) : '.' ∈ lastSegL (x ++ htmlE) := by
  rw [lastSegL_append x htmlE_noslash]
  exact List.mem_append.2 (Or.inr (by decide))

/-- Conflicting suffixes of length at least four: ending in the html
extension excludes ending in the php extension. -/
theorem ends_html_not_php {l x : List Char} (h : l = x ++ htmlE) : ¬ endsWithL l phpE := by
  intro hc
  rcases (endsWithL_iff _ _).1 hc with ⟨t, ht⟩
  have := suffix_suffix_take 4 h ht (by decide) (by decide)
  revert this
  decide

/-! MD5 digest facts -/

theorem toLEBytes_length (n k : Nat) : (toLEBytes n k).length = k := by
  induction k generalizing n with
  | zero => rfl
  | succ k ih => simp [toLEBytes, ih]

theorem md5Bytes_length (m : List Nat) : (md5Bytes m).length = 16 := by
  unfold md5Bytes
  simp [toLEBytes_length]

theorem md5HexDigest_length (m : List Nat) : (md5HexDigest m).length = 32 := by
  unfold md5HexDigest
  have h : ∀ l : List Nat, (l.foldr (fun b acc => byteHex b ++ acc) []).length = 2 * l.length := by
    intro l
    induction l with
    | nil => rfl
    | cons b bs ih =>
        simp only [List.foldr_cons, List.length_append, ih]
        simp [byteHex]
        omega
  rw [h, md5Bytes_length]

theorem md5Hex8_length (q : List Char) : (md5Hex8 q).length = 8 := by
  unfold md5Hex8
  rw [List.length_take, md5HexDigest_length]
  decide

theorem hexChar_mem (n : Nat) : hexChar n ∈ hexDigits := by
  by_cases h : n < 16
  · interval_cases n <;> decide
  · have hd : hexDigits.getD n '0' = '0' := by
      apply List.getD_eq_default
      have : hexDigits.length = 16 := by decide
      omega
    unfold hexChar
    rw [hd]
    decide

theorem mem_md5HexDigest_hex {m : List Nat} {c : Char} (h : c ∈ md5HexDigest m) :
    c ∈ hexDigits := by
  unfold md5HexDigest at h
  generalize md5Bytes m = bs at h
  induction bs with
  | nil => simp at h
  | cons b t ih =>
      simp only [List.foldr_cons] at h
      rcases List.mem_append.1 h with h | h
      · simp only [byteHex, List.mem_cons, List.mem_singleton] at h
        rcases h with h | h | h
        · exact h ▸ hexChar_mem _
        · exact h ▸ hexChar_mem _
        · simp at h
      · exact ih h

theorem md5Hex8_hex (q : List Char) : ∀ c ∈ md5Hex8 q, c ∈ hexDigits := by
  intro c hc
  unfold md5Hex8 at hc
  exact mem_md5HexDigest_hex ((List.take_sublist _ _).subset hc)

theorem md5Hex8_noslash (q : List Char) : ∀ c ∈ md5Hex8 q, (c != '/') = true := by
  intro c hc
  have h2 : ∀ x ∈ hexDigits, (x != '/') = true := by decide
  exact h2 c (md5Hex8_hex q c hc)

/-! splitext facts -/

theorem splitextL_cases (p : List Char) :
    splitextL p = (p, []) ∨
    ∃ w2, (splitextL p).2 = '.' :: w2 ∧ ∀ c ∈ w2, (c != '/') = true := by
  unfold splitextL
  dsimp only
  rcases hm : (p.reverse.takeWhile (fun c => c != '/')).dropWhile (fun c => c != '.')
    with _ | ⟨d, v⟩
  · exact Or.inl rfl
  · dsimp only
    by_cases hall : v.reverse.all (fun c => c == '.')
    · rw [if_pos hall]
      exact Or.inl rfl
    · rw [if_neg hall]
      refine Or.inr ⟨_, rfl, ?_⟩
      intro c hc
      rw [List.mem_reverse] at hc
      have h1 := mem_takeWhile_mem hc
      have h2 := mem_takeWhile_mem h1.1
      exact h2.2

/-! phpFix facts -/

theorem phpFix_not_php (p : List Char) : ¬ endsWithL (phpFix p) phpE := by
  unfold phpFix
  split
  · exact ends_html_not_php rfl
  · rename_i hp
    exact hp

theorem phpFix_dot {p : List Char} (h : '.' ∈ lastSegL p) : '.' ∈ lastSegL (phpFix p) := by
  unfold phpFix
  split
  · exact dot_mem_lastSegL_append_html _
  · exact h

/-! pathPhase1 facts -/

theorem pathPhase1_dot (pp : List Char) : '.' ∈ lastSegL (pathPhase1 pp) := by
  unfold pathPhase1
  dsimp only
  split
  · decide
  · split
    · rw [lastSegL_append _ idxHtml_noslash]
      exact List.mem_append.2 (Or.inr (by decide))
    · split
      · rw [(show slashIdxHtmlL = '/' :: ("index.html".toList) from rfl), lastSegL_join]
        decide
      · rename_i hcond
        exact not_not.1 hcond

theorem pathPhase1_of_ends_php {pp : List Char} (h : endsWithL pp phpE) :
    pathPhase1 pp = stripChar '/' pp ∧ endsWithL (pathPhase1 pp) phpE := by
  have hs := stripChar_of_endsWith_php h
  have hne : stripChar '/' pp ≠ [] := by
    intro he
    have hl := endsWithL_length hs.2
    rw [he] at hl
    simp [phpE] at hl
  have hnsl : ¬ endsWithL (stripChar '/' pp) ['/'] := stripChar_no_trailing hne
  have hdot : '.' ∈ lastSegL (stripChar '/' pp) := by
    rcases (endsWithL_iff _ _).1 hs.2 with ⟨t, ht⟩
    rw [ht, lastSegL_append _ phpE_noslash]
    exact List.mem_append.2 (Or.inr (by decide))
  have he1 : pathPhase1 pp = stripChar '/' pp := by
    unfold pathPhase1
    dsimp only
    rw [if_neg hne, if_neg hnsl, if_neg (not_not_intro hdot)]
  exact ⟨he1, by rw [he1]; exact hs.2⟩

/-! Association-list facts for the php_to_html cache -/

theorem lookup_mem {k v : List Char} : ∀ {m : Cache}, m.lookup k = some v → (k, v) ∈ m := by
  intro m
  induction m with
  | nil => intro h; simp [List.lookup] at h
  | cons kv t ih =>
      intro h
      rcases kv with ⟨k1, v1⟩
      simp only [List.lookup] at h
      cases hk : (k == k1) with
      | true =>
          rw [hk] at h
          simp only [Option.some.injEq] at h
          exact List.mem_cons.2 (Or.inl (by rw [eq_of_beq hk, h]))
      | false =>
          rw [hk] at h
          exact List.mem_cons.2 (Or.inr (ih h))

theorem mem_alUpdate {k v : List Char} {kv : List Char × List Char} {m : Cache}
    (h : kv ∈ alUpdate k v m) : kv = (k, v) ∨ kv ∈ m := by
  unfold alUpdate at h
  split at h
  · rcases List.mem_map.1 h with ⟨x, hx, he⟩
    by_cases hxk : x.1 = k
    · rw [if_pos hxk] at he
      exact Or.inl he.symm
    · rw [if_neg hxk] at he
      exact Or.inr (he ▸ hx)
  · rcases List.mem_append.1 h with h | h
    · exact Or.inr h
    · left
      simpa using h

theorem wfCache_nil : wfCache [] := by
  intro kv hkv
  simp at hkv

theorem wfCache_update {m : Cache} (hwf : wfCache m) (p a : List Char) (hp : '?' ∉ p) :
    wfCache (alUpdate (p ++ qActEq ++ a) (derivePath p a) m) := by
  intro kv hkv p2 a2 hk hp2
  rcases mem_alUpdate hkv with he | hm
  · subst he
    dsimp only at hk ⊢
    rcases keyInj hp hp2 hk with ⟨hpe, hae⟩
    rw [← hpe, ← hae]
  · exact hwf kv hm p2 a2 hk hp2

/-! ## Claim C8: the generic query-string hash suffix -/

/-- C8: for a url with a nonempty query that does not match the dispatch
convention (no recognized action parameter on a php path), url_to_local_path
inserts an underscore followed by the 8-character suffix md5Hex8 of the raw
query string in front of the splitext extension of the phase-one path, the
php extension conversion applying afterwards; the cache is left untouched
and the result does not depend on it; the suffix is a pure function of the
exact raw query string of length 8 whose characters are all lowercase
hexadecimal digits. -/
theorem c8_generic_query_hash (outDir : List Char) (cache : Cache) (url : List Char)
    (hq : (urlparseL url).query ≠ [])
    (hnd : firstQsVal (urlparseL url).query actionK = none ∨
      ¬ endsWithL (pathPhase1 (urlparseL url).path) phpE) :
    (urlToLocalRel cache url).1 =
      phpFix ((splitextL (pathPhase1 (urlparseL url).path)).1 ++
        '_' :: (md5Hex8 (urlparseL url).query ++ (splitextL (pathPhase1 (urlparseL url).path)).2))
    ∧ (urlToLocalRel cache url).2 = cache
    ∧ (urlToLocalPath outDir cache url).1 =
      pyPathJoin outDir (phpFix ((splitextL (pathPhase1 (urlparseL url).path)).1 ++
        '_' :: (md5Hex8 (urlparseL url).query ++ (splitextL (pathPhase1 (urlparseL url).path)).2)))
    ∧ (md5Hex8 (urlparseL url).query).length = 8
    ∧ (∀ c ∈ md5Hex8 (urlparseL url).query, c ∈ hexDigits) := by
  have key : urlToLocalRel cache url =
      (phpFix ((splitextL (pathPhase1 (urlparseL url).path)).1 ++
        '_' :: (md5Hex8 (urlparseL url).query ++
          (splitextL (pathPhase1 (urlparseL url).path)).2)), cache) := by
    unfold urlToLocalRel
    dsimp only
    rw [if_pos hq]
    rcases hnd with hnone | hnphp
    · rw [hnone]
    · rcases ha : firstQsVal (urlparseL url).query actionK with _ | act
      · rfl
      · dsimp only
        rw [if_neg hnphp]
  refine ⟨by rw [key], by rw [key], ?_, md5Hex8_length _, md5Hex8_hex _⟩
  unfold urlToLocalPath
  dsimp only
  rw [key]

set_option maxRecDepth 40000 in
/-- Witness for C8: the query foo equals bar on a non-dispatch url yields
the md5-derived suffix 06ad47d8 inserted before the html extension, with
the cache untouched. -/
theorem c8_generic_query_hash_witness :
    (urlToLocalRel [] ("http://www.ccspace.org/page.html?foo=bar".toList)).1 =
      ("page_06ad47d8.html".toList) ∧
    (urlToLocalRel [] ("http://www.ccspace.org/page.html?foo=bar".toList)).2 = [] ∧
    (md5Hex8 ("foo=bar".toList)).length = 8 := by
  have h := c8_generic_query_hash ("archive".toList) []
    ("http://www.ccspace.org/page.html?foo=bar".toList) (by decide) (Or.inl (by decide))
  refine ⟨?_, h.2.1, ?_⟩
  · rw [h.1]
    decide
  · exact h.2.2.2.1

/-! ## Claim C1: agreement of url_to_local_path and
convert_php_url_to_html_path on dispatch urls -/

theorem derivePath_not_php (p a : List Char) : ¬ endsWithL (derivePath p a) phpE := by
  unfold derivePath
  dsimp only
  split
  · exact ends_html_not_php (show _ = (dirnameL (stripChar '/' p) ++
      '/' :: sanitizeAction a) ++ htmlE by simp)
  · exact ends_html_not_php rfl

/-- C1: for every cache state the program can reach (the well-formedness
predicate wfCache holds of the empty cache and is preserved by the update
url_to_local_path performs, as proved in wfCache_nil and wfCache_update),
and every url matching the dispatch convention (path ending in the php
extension, recognized action parameter), convert_php_url_to_html_path
returns the dispatch path formed from the php file's directory and the
sanitized action value plus html extension, and url_to_local_path returns
exactly that string joined under the output root, leaving the cache well
formed. -/
theorem c1_dispatch_path_agreement (outDir : List Char) (cache : Cache) (url a : List Char)
    (hwf : wfCache cache)
    (hphp : endsWithL (urlparseL url).path phpE)
    (hact : firstQsVal (urlparseL url).query actionK = some a) :
    convertPhpUrlToHtmlPath cache url = some (derivePath (urlparseL url).path a)
    ∧ (urlToLocalPath outDir cache url).1 =
        pyPathJoin outDir (derivePath (urlparseL url).path a)
    ∧ wfCache (urlToLocalPath outDir cache url).2 := by
  have hq : (urlparseL url).query ≠ [] := by
    intro he
    rw [he] at hact
    rw [(show firstQsVal [] actionK = none from by decide)] at hact
    simp at hact
  have hne : url ≠ [] := by
    intro he
    subst he
    exact absurd hphp (by decide)
  have hp1 := pathPhase1_of_ends_php hphp
  have hnoq : '?' ∉ (urlparseL url).path := qmark_not_mem_path url
  have hval : (if dirnameL (pathPhase1 (urlparseL url).path) ≠ [] then
      dirnameL (pathPhase1 (urlparseL url).path) ++ '/' :: (sanitizeAction a ++ htmlE)
      else sanitizeAction a ++ htmlE) = derivePath (urlparseL url).path a := by
    rw [hp1.1]
    rfl
  have hconv : convertPhpUrlToHtmlPath cache url =
      some (derivePath (urlparseL url).path a) := by
    unfold convertPhpUrlToHtmlPath
    rw [if_neg hne]
    dsimp only
    rw [if_pos ⟨hq, hphp⟩, hact]
    dsimp only
    rcases hl : cache.lookup ((urlparseL url).path ++ qActEq ++ a) with _ | v
    · rfl
    · have hv := hwf _ (lookup_mem hl) (urlparseL url).path a rfl hnoq
      dsimp only at hv
      rw [hv]
  have hfix : phpFix (derivePath (urlparseL url).path a) = derivePath (urlparseL url).path a := by
    unfold phpFix
    rw [if_neg (derivePath_not_php _ _)]
  have hu2l : urlToLocalRel cache url =
      (derivePath (urlparseL url).path a,
        alUpdate ((urlparseL url).path ++ qActEq ++ a)
          (derivePath (urlparseL url).path a) cache) := by
    unfold urlToLocalRel
    dsimp only
    rw [if_pos hq, hact]
    dsimp only
    rw [if_pos hp1.2]
    rw [hval, hfix]
  refine ⟨hconv, ?_, ?_⟩
  · unfold urlToLocalPath
    dsimp only
    rw [hu2l]
  · unfold urlToLocalPath
    dsimp only
    rw [hu2l]
    exact wfCache_update hwf _ a hnoq

/-- Witness for C1 at the empty (well-formed) cache and the concrete
dispatch url of the spec example: both functions land on events.html. -/
theorem c1_dispatch_path_agreement_witness :
    wfCache ([] : Cache) ∧
    convertPhpUrlToHtmlPath [] ("http://www.ccspace.org/index.php?action=events".toList) =
      some ("events.html".toList) ∧
    (urlToLocalPath ("archive".toList) []
        ("http://www.ccspace.org/index.php?action=events".toList)).1 =
      ("archive/events.html".toList) := by
  have h := c1_dispatch_path_agreement ("archive".toList) []
    ("http://www.ccspace.org/index.php?action=events".toList) ("events".toList)
    wfCache_nil (by decide) (by decide)
  refine ⟨wfCache_nil, ?_, ?_⟩
  · rw [h.1]
    decide
  · rw [h.2.1]
    decide

/-! ## Claim C2: shape of the local path url_to_local_path builds -/

theorem generic_pre_dot (pp q : List Char) :
    '.' ∈ lastSegL ((splitextL (pathPhase1 pp)).1 ++
      '_' :: (md5Hex8 q ++ (splitextL (pathPhase1 pp)).2)) := by
  rcases splitextL_cases (pathPhase1 pp) with hca | ⟨w2, hw2, hnos⟩
  · rw [hca]
    dsimp only
    rw [lastSegL_append]
    · exact List.mem_append.2 (Or.inl (pathPhase1_dot pp))
    · intro c hc
      rcases List.mem_cons.1 hc with rfl | hc
      · decide
      · rcases List.mem_append.1 hc with hc | hc
        · exact md5Hex8_noslash q c hc
        · simp at hc
  · rw [hw2]
    rw [lastSegL_append]
    · refine List.mem_append.2 (Or.inr ?_)
      refine List.mem_cons.2 (Or.inr ?_)
      exact List.mem_append.2 (Or.inr (by simp))
    · intro c hc
      rcases List.mem_cons.1 hc with rfl | hc
      · decide
      · rcases List.mem_append.1 hc with hc | hc
        · exact md5Hex8_noslash q c hc
        · rcases List.mem_cons.1 hc with rfl | hc
          · decide
          · exact hnos c hc

theorem dispatch_pre_dot (pp a : List Char) :
    '.' ∈ lastSegL (if dirnameL (pathPhase1 pp) ≠ [] then
      dirnameL (pathPhase1 pp) ++ '/' :: (sanitizeAction a ++ htmlE)
      else sanitizeAction a ++ htmlE) := by
  split
  · rw [lastSegL_join]
    exact dot_mem_lastSegL_append_html _
  · exact dot_mem_lastSegL_append_html _

/-- Every relative path built by url_to_local_path is the php-extension fix
of a path whose last segment contains a dot. -/
theorem urlToLocalRel_pre (cache : Cache) (url : List Char) :
    ∃ pre, (urlToLocalRel cache url).1 = phpFix pre ∧ '.' ∈ lastSegL pre := by
  by_cases hq : (urlparseL url).query ≠ []
  · rcases ha : firstQsVal (urlparseL url).query actionK with _ | act
    · have key : (urlToLocalRel cache url).1 =
          phpFix ((splitextL (pathPhase1 (urlparseL url).path)).1 ++
            '_' :: (md5Hex8 (urlparseL url).query ++
              (splitextL (pathPhase1 (urlparseL url).path)).2)) := by
        unfold urlToLocalRel
        dsimp only
        rw [if_pos hq, ha]
      exact ⟨_, key, generic_pre_dot _ _⟩
    · by_cases hphp : endsWithL (pathPhase1 (urlparseL url).path) phpE
      · have key : (urlToLocalRel cache url).1 =
            phpFix (if dirnameL (pathPhase1 (urlparseL url).path) ≠ [] then
              dirnameL (pathPhase1 (urlparseL url).path) ++
                '/' :: (sanitizeAction act ++ htmlE)
              else sanitizeAction act ++ htmlE) := by
          unfold urlToLocalRel
          dsimp only
          rw [if_pos hq, ha]
          dsimp only
          rw [if_pos hphp]
        exact ⟨_, key, dispatch_pre_dot _ act⟩
      · have key : (urlToLocalRel cache url).1 =
            phpFix ((splitextL (pathPhase1 (urlparseL url).path)).1 ++
              '_' :: (md5Hex8 (urlparseL url).query ++
                (splitextL (pathPhase1 (urlparseL url).path)).2)) := by
          unfold urlToLocalRel
          dsimp only
          rw [if_pos hq, ha]
          dsimp only
          rw [if_neg hphp]
        exact ⟨_, key, generic_pre_dot _ _⟩
  · have key : (urlToLocalRel cache url).1 = phpFix (pathPhase1 (urlparseL url).path) := by
      unfold urlToLocalRel
      dsimp only
      rw [if_neg hq]
    exact ⟨_, key, pathPhase1_dot _⟩

set_option maxRecDepth 40000 in
/-- C2 counterexample: a trailing-slash url whose final segment contains a
dot does not map to index.html (the trailing slash is stripped first and
the dot suppresses the index.html append), and a path with a trailing dot
segment makes the returned Path end in the php extension, because the
pathlib join collapses the dot component after the extension conversion
already ran. -/
theorem c2_local_path_shape_counterexample :
    endsWithL (urlparseL ("http://www.ccspace.org/gallery.old/".toList)).path ['/'] ∧
    (urlToLocalPath ("archive".toList) []
        ("http://www.ccspace.org/gallery.old/".toList)).1 =
      ("archive/gallery.old".toList) ∧
    ¬ endsWithL (urlToLocalPath ("archive".toList) []
        ("http://www.ccspace.org/gallery.old/".toList)).1 idxHtmlL ∧
    (urlToLocalPath ("archive".toList) []
        ("http://www.ccspace.org/a.php/./".toList)).1 =
      ("archive/a.php".toList) ∧
    endsWithL (urlToLocalPath ("archive".toList) []
        ("http://www.ccspace.org/a.php/./".toList)).1 phpE := by
  refine ⟨by decide, by decide, by decide, by decide, by decide⟩

/-- C2 as amended: with no query string, an empty stripped path maps to
index.html under the output root and a stripped path whose final segment
contains no dot gets slash index.html appended (so a trailing-slash url is
first stripped of the slash and only then falls under the no-extension
rule); and for every input the relative path string the function builds,
before the pathlib join against the output root, is the php-extension fix
of a dotted-segment path: its final segment contains a dot and it never
ends in the php extension.  The pathlib join then collapses empty and
single-dot components, which is what breaks both properties on degenerate
dot-segment urls at the level of the returned Path. -/
theorem c2_local_path_shape (outDir : List Char) (cache : Cache) (url : List Char) :
    ((urlparseL url).query = [] → stripChar '/' (urlparseL url).path = [] →
      (urlToLocalPath outDir cache url).1 = pyPathJoin outDir idxHtmlL)
    ∧ ((urlparseL url).query = [] → stripChar '/' (urlparseL url).path ≠ [] →
        '.' ∉ lastSegL (stripChar '/' (urlparseL url).path) →
        (urlToLocalPath outDir cache url).1 =
          pyPathJoin outDir (stripChar '/' (urlparseL url).path ++ slashIdxHtmlL))
    ∧ '.' ∈ lastSegL (urlToLocalRel cache url).1
    ∧ ¬ endsWithL (urlToLocalRel cache url).1 phpE := by
  refine ⟨?_, ?_, ?_, ?_⟩
  · intro hq0 hp0
    have hpath1 : pathPhase1 (urlparseL url).path = idxHtmlL := by
      unfold pathPhase1
      dsimp only
      rw [if_pos hp0]
    have hrel : urlToLocalRel cache url = (idxHtmlL, cache) := by
      unfold urlToLocalRel
      dsimp only
      rw [if_neg (not_not_intro hq0), hpath1]
      rw [(show phpFix idxHtmlL = idxHtmlL from by decide)]
    unfold urlToLocalPath
    dsimp only
    rw [hrel]
  · intro hq0 hne hdot
    have hpath1 : pathPhase1 (urlparseL url).path =
        stripChar '/' (urlparseL url).path ++ slashIdxHtmlL := by
      unfold pathPhase1
      dsimp only
      rw [if_neg hne, if_neg (stripChar_no_trailing hne), if_pos hdot]
    have hnophp : ¬ endsWithL (stripChar '/' (urlparseL url).path ++ slashIdxHtmlL) phpE := by
      apply ends_html_not_php
      rw [(show slashIdxHtmlL = ("/index".toList) ++ htmlE from by decide)]
      rw [← List.append_assoc]
    have hrel : urlToLocalRel cache url =
        (stripChar '/' (urlparseL url).path ++ slashIdxHtmlL, cache) := by
      unfold urlToLocalRel
      dsimp only
      rw [if_neg (not_not_intro hq0), hpath1]
      unfold phpFix
      rw [if_neg hnophp]
    unfold urlToLocalPath
    dsimp only
    rw [hrel]
  · rcases urlToLocalRel_pre cache url with ⟨pre, he, hdot⟩
    rw [he]
    exact phpFix_dot hdot
  · rcases urlToLocalRel_pre cache url with ⟨pre, he, _⟩
    rw [he]
    exact phpFix_not_php pre

/-- Witness for C2 as amended: the concrete no-extension directory url of
the test suite and the trailing-dot-free invariants at a dispatch url. -/
theorem c2_local_path_shape_witness :
    (urlToLocalPath ("archive".toList) [] ("http://www.ccspace.org/about".toList)).1 =
      pyPathJoin ("archive".toList)
        (stripChar '/' (urlparseL ("http://www.ccspace.org/about".toList)).path ++
          slashIdxHtmlL) ∧
    (urlToLocalPath ("archive".toList) [] ("http://www.ccspace.org/".toList)).1 =
      pyPathJoin ("archive".toList) idxHtmlL ∧
    '.' ∈ lastSegL (urlToLocalRel []
      ("http://www.ccspace.org/page.php?foo=bar".toList)).1 := by
  refine ⟨?_, ?_, ?_⟩
  · exact (c2_local_path_shape ("archive".toList) []
      ("http://www.ccspace.org/about".toList)).2.1 (by decide) (by decide) (by decide)
  · exact (c2_local_path_shape ("archive".toList) []
      ("http://www.ccspace.org/".toList)).1 (by decide) (by decide)
  · exact (c2_local_path_shape ("archive".toList) []
      ("http://www.ccspace.org/page.php?foo=bar".toList)).2.2.1

end ArchiveSite
